import Mathlib

/-!
Verification development for the Aseba compiler core.

The embedding follows `src/compiler/tree.h` (the AST node hierarchy and the
members defined inline there) and `src/common/utils/utils.h` (`clamp`,
`UnifiedTime`).  The bodies of the tree passes (tree expansion, optimization,
dumping, stack-depth analysis) live in implementation files that are not part
of the sources at hand; those are modelled from the specification, as marked
in the individual doc comments.

The C++ raw-pointer tree is embedded as a value-level inductive: every node
carries a variant tag (the dynamic type of the C++ object together with its
per-subclass attributes), a source position and a list of children, exactly
mirroring the `Node` base class of `tree.h`.
-/

namespace Aseba

/-- Clamp a value to a range, from `src/common/utils/utils.h` lines 176-180:
`return v < minV ? minV : (v > maxV ? maxV : v);` (the template is
instantiated here at machine integers, embedded as `Int`). -/
def clamp (v minV maxV : Int) : Int :=
  if v < minV then minV else if v > maxV then maxV else v

/-- Time or duration in milliseconds, from `src/common/utils/utils.h`
`UnifiedTime`.  The storage type is `long long unsigned`; the value is kept
as a natural number (the claims below concern division, which never leaves
the 64-bit range, so no reduction modulo 2^64 arises). -/
structure UnifiedTime where
  value : Nat
deriving DecidableEq, Repr

/-- Division `operator/` of `UnifiedTime` (utils.h line 97):
`assert(factor); return UnifiedTime(value / factor);`.  A failed assertion
is modelled as `none`; otherwise the quotient is returned. -/
def UnifiedTime.divOp (t : UnifiedTime) (factor : Nat) : Option UnifiedTime :=
  if factor = 0 then none else some ⟨t.value / factor⟩

/-- In-place division `operator/=` of `UnifiedTime` (utils.h line 89):
`assert(factor); value /= factor;`, modelled as the updated value. -/
def UnifiedTime.divAssignOp (t : UnifiedTime) (factor : Nat) : Option UnifiedTime :=
  if factor = 0 then none else some ⟨t.value / factor⟩

/-- Modelled from the spec: `SourcePos` is declared in `compiler.h`, which is
not among the sources; section 3.1 of the spec gives it as
`{row, column, character-offset}`. -/
structure SourcePos where
  row : Nat
  column : Nat
  character : Nat
deriving DecidableEq, Repr

/-- Compile-time error kinds, from section 7 of the spec (the concrete
`Error` class lives in `compiler.h`, outside the sources at hand; only the
kind and the carried source position matter to the claims, and positions are
recorded at the raising site in the functions below, so the kind alone is
embedded). -/
inductive CompErr where
  | parseTypeMismatch
  | outOfBoundsAccess
  | illegalIndexExpression
  | typeError
  | divideByZero
  | internalInvariantViolation
deriving DecidableEq, Repr

/-- Return type of a node, `Node::ReturnType` from tree.h lines 49-54. -/
inductive ReturnType where
  | unit
  | bool
  | int
deriving DecidableEq, Repr

/-- Modelled from the spec: `AsebaBinaryOperator` is defined in
`common/consts.h`, which is not among the sources; the operator set follows
sections 4.3 and 4.4 of the spec (arithmetic, shift, bitwise, comparison and
logical binary operators). -/
inductive AsebaBinaryOperator where
  | opAdd
  | opSub
  | opMult
  | opDiv
  | opMod
  | opShiftLeft
  | opShiftRight
  | opBitOr
  | opBitXor
  | opBitAnd
  | opEqual
  | opNotEqual
  | opBiggerThan
  | opBiggerEqualThan
  | opSmallerThan
  | opSmallerEqualThan
  | opOr
  | opAnd
deriving DecidableEq, Repr

/-- Modelled from the spec: `AsebaUnaryOperator` is defined in
`common/consts.h`, which is not among the sources; the operator set follows
section 4.3 of the spec (negation, absolute value, bitwise not, logical not). -/
inductive AsebaUnaryOperator where
  | opNeg
  | opAbs
  | opBitNot
  | opNot
deriving DecidableEq, Repr

/-- Variant tag of a node: the dynamic type of the C++ `Node` subclass from
tree.h together with the attributes that subclass adds.  One constructor per
concrete subclass of `Node` (tree.h lines 100-538). -/
inductive NodeTag where
  | block
  | program
  | assignment
  | ifWhen (edgeSensitive : Bool) (endLine : Nat)
  | foldedIfWhen (op : AsebaBinaryOperator) (edgeSensitive : Bool) (endLine : Nat)
  | whileLoop
  | foldedWhile (op : AsebaBinaryOperator)
  | eventDecl (eventId : Nat)
  | emitEvent (eventId : Nat) (arrayAddr : Nat) (arraySize : Nat)
  | subDecl (subroutineId : Nat)
  | callSub (subroutineId : Nat)
  | binaryArithmetic (op : AsebaBinaryOperator)
  | unaryArithmetic (op : AsebaUnaryOperator)
  | immediate (value : Int)
  | store (varAddr : Nat)
  | load (varAddr : Nat)
  | arrayWrite (arrayAddr : Nat) (arraySize : Nat) (arrayName : String)
  | arrayRead (arrayAddr : Nat) (arraySize : Nat) (arrayName : String)
  | call (funcId : Nat) (argumentsAddr : List Nat)
  | returnStatement
  | staticVector (values : List Int)
  | memoryVector (arrayAddr : Nat) (arraySize : Nat) (arrayName : String) (write : Bool)
deriving DecidableEq, Repr

/-- An abstract syntax tree node, `struct Node` from tree.h lines 46-97:
a variant tag, the source position (`sourcePos` member) and the ordered
children vector (`children` member). -/
inductive Node where
  | mk (tag : NodeTag) (sourcePos : SourcePos) (children : List Node)
deriving Repr

/-- Variant tag of a node. -/
def Node.tag : Node → NodeTag
  | .mk t _ _ => t

/-- Source position of a node (`sourcePos` member, tree.h line 96). -/
def Node.sourcePos : Node → SourcePos
  | .mk _ p _ => p

/-- Children vector of a node (`children` member, tree.h line 95). -/
def Node.children : Node → List Node
  | .mk _ _ cs => cs

mutual

/-- Number of nodes in a tree; the induction measure for the pass proofs. -/
def Node.nsize : Node → Nat
  | .mk _ _ cs => 1 + Node.nsizeList cs

/-- Number of nodes in a list of trees. -/
def Node.nsizeList : List Node → Nat
  | [] => 0
  | c :: cs => Node.nsize c + Node.nsizeList cs

end

/-- Shallow copy, `Node::shallowCopy` (tree.h line 59) as implemented inline
by every subclass, e.g. lines 104, 131, 293, 527: `return new T(*this);`.
The compiler-generated copy constructor duplicates the subclass attributes,
the source position and the children pointer vector, sharing the children
themselves. -/
def Node.shallowCopy : Node → Node
  | .mk t p cs => .mk t p cs

mutual

/-- Modelled from the spec: `Node::deepCopy` (declared tree.h line 60, body
in an implementation file not among the sources).  Section 4.1: shallow-copy
self, then recursively deep-copy each child. -/
def Node.deepCopy : Node → Node
  | .mk t p cs => .mk t p (Node.deepCopyList cs)

/-- Deep copy of each node of a children list. -/
def Node.deepCopyList : List Node → List Node
  | [] => []
  | c :: cs => Node.deepCopy c :: Node.deepCopyList cs

end

/-- String description of a node variant, `Node::toWString` (tree.h line 74).
The strings of `BlockNode`, `ProgramNode`, `AssignmentNode` and `ReturnNode`
are inline in tree.h (lines 108, 120, 137, 474); the remaining bodies are in
an implementation file not among the sources and are modelled from the node
names of the spec, which does not affect the claims settled here. -/
def NodeTag.toWString : NodeTag → String
  | .block => "Block"
  | .program => "ProgramBlock"
  | .assignment => "Assign"
  | .ifWhen _ _ => "If"
  | .foldedIfWhen _ _ _ => "Folded If"
  | .whileLoop => "While"
  | .foldedWhile _ => "Folded While"
  | .eventDecl _ => "Event Declaration"
  | .emitEvent _ _ _ => "Emit"
  | .subDecl _ => "Subroutine Declaration"
  | .callSub _ => "Subroutine Call"
  | .binaryArithmetic _ => "BinaryArithmetic"
  | .unaryArithmetic _ => "UnaryArithmetic"
  | .immediate v => "Immediate " ++ toString v
  | .store a => "Store " ++ toString a
  | .load a => "Load " ++ toString a
  | .arrayWrite a _ _ => "ArrayWrite " ++ toString a
  | .arrayRead a _ _ => "ArrayRead " ++ toString a
  | .call f _ => "Call " ++ toString f
  | .returnStatement => "Return"
  | .staticVector vs => "StaticVector " ++ toString vs
  | .memoryVector a _ _ _ => "MemoryVector " ++ toString a

mutual

/-- Modelled from the spec: `Node::dump` (declared tree.h line 78, body in an
implementation file not among the sources).  Section 4.1: pretty-print the
subtree to a stream with increasing indent.  The stream is embedded as the
produced string; the `unsigned& indent` reference parameter as an explicit
argument, incremented for the children. -/
def Node.dump : Node → Nat → String
  | .mk t _ cs, indent =>
    String.mk (List.replicate indent ' ') ++ NodeTag.toWString t ++ "\n" ++
      Node.dumpList cs (indent + 1)

/-- Dump of each node of a children list, concatenated. -/
def Node.dumpList : List Node → Nat → String
  | [], _ => ""
  | c :: cs, indent => Node.dump c indent ++ Node.dumpList cs indent

end

/-- Comparison operators, the operator range used by the comparison-branch
folding of section 4.4 of the spec. -/
def AsebaBinaryOperator.isComparison : AsebaBinaryOperator → Bool
  | .opEqual => true
  | .opNotEqual => true
  | .opBiggerThan => true
  | .opBiggerEqualThan => true
  | .opSmallerThan => true
  | .opSmallerEqualThan => true
  | _ => false

/-- Logical operators (`and`, `or`), section 4.3 of the spec. -/
def AsebaBinaryOperator.isLogic : AsebaBinaryOperator → Bool
  | .opOr => true
  | .opAnd => true
  | _ => false

mutual

/-- Type check of a node, `Node::typeCheck` (tree.h line 65).  The bodies of
the leaf subclasses are inline in tree.h and are followed exactly:
`ImmediateNode` line 343, `LoadNode` line 382, `ArrayReadNode` line 436
return `TYPE_INT`; `StoreNode` line 362, `ArrayWriteNode` line 403,
`EventDeclNode` line 227, `EmitNode` line 246, `SubDeclNode` line 262,
`CallNode` line 455, `ReturnNode` line 470 and `VectorNode` line 482 return
`TYPE_UNIT`.  The bodies of `AssignmentNode`, `BinaryArithmeticNode`,
`UnaryArithmeticNode`, `IfWhenNode`, `WhileNode` and the default
`Node::typeCheck` are in an implementation file not among the sources and
are modelled from section 4.3 of the spec: the lhs of an assignment must be
`Unit` and its rhs `Int`; arithmetic and bitwise operators take `Int` to
`Int`, comparisons take `Int` to `Bool`, logical operators take `Bool` to
`Bool`; conditions of `if`/`when`/`while` must be `Bool`; statement-level
nodes check their children and produce `Unit`. -/
def Node.typeCheck : Node → Except CompErr ReturnType
  | .mk t _ cs =>
    match t, cs with
    | .immediate _, _ => .ok .int
    | .load _, _ => .ok .int
    | .arrayRead _ _ _, _ => .ok .int
    | .store _, _ => .ok .unit
    | .arrayWrite _ _ _, _ => .ok .unit
    | .eventDecl _, _ => .ok .unit
    | .emitEvent _ _ _, _ => .ok .unit
    | .subDecl _, _ => .ok .unit
    | .call _ _, _ => .ok .unit
    | .returnStatement, _ => .ok .unit
    | .memoryVector _ _ _ _, _ => .ok .unit
    | .staticVector _, _ => .ok .unit
    | .assignment, [lhs, rhs] =>
      match Node.typeCheck lhs, Node.typeCheck rhs with
      | .ok tl, .ok tr =>
        if tl = .unit ∧ tr = .int then .ok .unit else .error .typeError
      | .error e, _ => .error e
      | .ok _, .error e => .error e
    | .assignment, cs =>
      match Node.typeCheckList cs with
      | .ok _ => .ok .unit
      | .error e => .error e
    | .binaryArithmetic op, [l, r] =>
      match Node.typeCheck l, Node.typeCheck r with
      | .ok tl, .ok tr =>
        if op.isLogic then
          if tl = .bool ∧ tr = .bool then .ok .bool else .error .typeError
        else if op.isComparison then
          if tl = .int ∧ tr = .int then .ok .bool else .error .typeError
        else
          if tl = .int ∧ tr = .int then .ok .int else .error .typeError
      | .error e, _ => .error e
      | .ok _, .error e => .error e
    | .binaryArithmetic _, _ => .error .typeError
    | .unaryArithmetic op, [c] =>
      match Node.typeCheck c with
      | .ok tc =>
        if op = .opNot then
          if tc = .bool then .ok .bool else .error .typeError
        else
          if tc = .int then .ok .int else .error .typeError
      | .error e => .error e
    | .unaryArithmetic _, _ => .error .typeError
    | .ifWhen _ _, cond :: rest =>
      match Node.typeCheck cond with
      | .ok tc =>
        if tc = .bool then
          match Node.typeCheckList rest with
          | .ok _ => .ok .unit
          | .error e => .error e
        else .error .typeError
      | .error e => .error e
    | .ifWhen _ _, [] => .ok .unit
    | .whileLoop, cond :: rest =>
      match Node.typeCheck cond with
      | .ok tc =>
        if tc = .bool then
          match Node.typeCheckList rest with
          | .ok _ => .ok .unit
          | .error e => .error e
        else .error .typeError
      | .error e => .error e
    | .whileLoop, [] => .ok .unit
    | .block, cs =>
      match Node.typeCheckList cs with
      | .ok _ => .ok .unit
      | .error e => .error e
    | .program, cs =>
      match Node.typeCheckList cs with
      | .ok _ => .ok .unit
      | .error e => .error e
    | .callSub _, cs =>
      match Node.typeCheckList cs with
      | .ok _ => .ok .unit
      | .error e => .error e
    | .foldedIfWhen _ _ _, cs =>
      match Node.typeCheckList cs with
      | .ok _ => .ok .unit
      | .error e => .error e
    | .foldedWhile _, cs =>
      match Node.typeCheckList cs with
      | .ok _ => .ok .unit
      | .error e => .error e

/-- Type check of each node of a children list in order, stopping at the
first violation. -/
def Node.typeCheckList : List Node → Except CompErr Unit
  | [] => .ok ()
  | c :: cs =>
    match Node.typeCheck c with
    | .ok _ => Node.typeCheckList cs
    | .error e => .error e

end

/-- `LoadNode` constructor taking a `StoreNode` (tree.h line 379):
`LoadNode(const StoreNode* store) : Node(store->sourcePos),
varAddr(store->varAddr) {}` — it copies the store node's source position and
variable address; the new node has the default-empty children vector and
retains no reference to the store node.  A node that is not a `StoreNode`
cannot be passed (the parameter type is `const StoreNode*`), embedded as
`none`. -/
def LoadNode.ofStoreNode : Node → Option Node
  | .mk (.store varAddr) pos _ => some (.mk (.load varAddr) pos [])
  | _ => none

/-- `ArrayReadNode` constructor taking an `ArrayWriteNode` (tree.h lines
421-433): it copies the write node's source position, `arrayAddr`,
`arraySize` and `arrayName`; if the write node has at least one child and
that child is an `ImmediateNode`, a copy of that immediate is pushed as the
only child, otherwise the error "Such operation is not permitted with
non-immediate index" is thrown (kind `IllegalIndexExpression`, spec section
7).  A node that is not an `ArrayWriteNode` cannot be passed (the parameter
type is `const ArrayWriteNode*`), embedded as an internal error. -/
def ArrayReadNode.ofArrayWriteNode : Node → Except CompErr Node
  | .mk (.arrayWrite arrayAddr arraySize arrayName) pos cs =>
    match cs with
    | .mk (.immediate v) ip ics :: _ =>
      .ok (.mk (.arrayRead arrayAddr arraySize arrayName) pos [.mk (.immediate v) ip ics])
    | _ => .error .illegalIndexExpression
  | _ => .error .internalInvariantViolation

/-- Head of a children list is an `ImmediateNode` — the condition
`write->children.size() > 0 && dynamic_cast<ImmediateNode*>(...) != 0` of
tree.h line 429. -/
def headIsImmediate : List Node → Bool
  | .mk (.immediate _) _ _ :: _ => true
  | _ => false

mutual

/-- Modelled from the spec: `Node::getStackDepth` (tree.h line 69) and its
overrides; the bodies other than `ReturnNode` (inline, tree.h line 472,
returning 0) are in an implementation file not among the sources.  Section
4.5: leaf push operations (`Immediate`, `Load`) report 1; the pure pop
operation `Store` reports 1 (transient); a binary operation reports
`max(left.depth, 1 + right.depth)`, as does a folded comparison-branch for
its two lifted operands; everything else reports the maximum over its
children (0 when there are none, which also gives `ReturnNode` its inline
value 0). -/
def Node.getStackDepth : Node → Nat
  | .mk t _ cs =>
    match t, cs with
    | .immediate _, _ => 1
    | .load _, _ => 1
    | .store _, _ => 1
    | .binaryArithmetic _, [l, r] =>
      max (Node.getStackDepth l) (1 + Node.getStackDepth r)
    | .foldedIfWhen _ _ _, l :: r :: rest =>
      max (max (Node.getStackDepth l) (1 + Node.getStackDepth r))
        (Node.getStackDepthList rest)
    | .foldedWhile _, l :: r :: rest =>
      max (max (Node.getStackDepth l) (1 + Node.getStackDepth r))
        (Node.getStackDepthList rest)
    | _, cs => Node.getStackDepthList cs

/-- Maximum stack depth over a children list. -/
def Node.getStackDepthList : List Node → Nat
  | [] => 0
  | c :: cs => max (Node.getStackDepth c) (Node.getStackDepthList cs)

end

/-- Scalar memory access node: a `StoreNode` when writing, a `LoadNode` when
reading (spec section 4.2, rules 2-4). -/
def accessNode (write : Bool) (addr : Nat) (p : SourcePos) : Node :=
  .mk (if write then .store addr else .load addr) p []

/-- The `k` scalar access nodes for the slots `base, base+1, ..., base+k-1`
of an array starting at `addr` (spec section 4.2, rules 2 and 3). -/
def expandSlots (write : Bool) (addr : Nat) (p : SourcePos) (base k : Nat) : List Node :=
  (List.range k).map (fun i => accessNode write (addr + base + i) p)

/-- The immediates of a `StaticVectorNode`, one `ImmediateNode` per value
(spec section 4.2, rule 7). -/
def expandImmediates (values : List Int) (p : SourcePos) : List Node :=
  values.map (fun v => Node.mk (.immediate v) p [])

/-- Element-wise combination of the expansions of the two operands of a
binary operation (spec section 4.2, rule 6): equal sizes combine
element-wise; a scalar against a vector broadcasts by duplicating the scalar
subtree via deep copy; any other size combination is a size mismatch. -/
def combineVec (op : AsebaBinaryOperator) (p : SourcePos) (ls rs : List Node) :
    Except CompErr (List Node) :=
  if ls.length = rs.length then
    .ok (List.zipWith (fun a b => Node.mk (.binaryArithmetic op) p [a, b]) ls rs)
  else
    match ls, rs with
    | [e], rs => .ok (rs.map (fun b => Node.mk (.binaryArithmetic op) p [e.deepCopy, b]))
    | ls, [e] => .ok (ls.map (fun a => Node.mk (.binaryArithmetic op) p [a, e.deepCopy]))
    | _, _ => .error .parseTypeMismatch

mutual

/-- Modelled from the spec: the element-wise expansion of a (possibly
vector-valued) expression, the core of the tree-expansion pass of section
4.2 whose bodies (`MemoryVectorNode::treeExpand`, tree.h line 529, and the
other `treeExpand` overrides) are in an implementation file not among the
sources.  The result is the list of scalar nodes for the expression's
elements: a `StaticVectorNode` yields its immediates (rule 7); a
`MemoryVectorNode` with no index yields the accesses of its whole array
(rule 2), with a two-value `StaticVectorNode` index the accesses of the
inclusive slice after a bounds check (rule 3), with a one-value
`StaticVectorNode` index the single access after a bounds check (rule 4),
and with any other index a single `ArrayReadNode`/`ArrayWriteNode` chosen by
the `write` flag (rule 5); binary and unary operations expand element-wise
with scalar broadcast (rule 6); every other node is scalar and expands its
children in place. -/
def Node.expandAll : Node → Except CompErr (List Node)
  | .mk (.staticVector values) p _ => .ok (expandImmediates values p)
  | .mk (.memoryVector addr size name write) p cs =>
    match cs with
    | [] => .ok (expandSlots write addr p 0 size)
    | [.mk (.staticVector [c]) _ _] =>
      if 0 ≤ c ∧ c < (size : Int) then .ok [accessNode write (addr + c.toNat) p]
      else .error .outOfBoundsAccess
    | [.mk (.staticVector [lo, hi]) _ _] =>
      if 0 ≤ lo ∧ lo ≤ hi ∧ hi < (size : Int) then
        .ok (expandSlots write addr p lo.toNat (hi - lo + 1).toNat)
      else .error .outOfBoundsAccess
    | [.mk (.staticVector _) _ _] => .error .internalInvariantViolation
    | [index] =>
      match Node.expandAll index with
      | .ok [e] =>
        .ok [.mk (if write then .arrayWrite addr size name else .arrayRead addr size name) p [e]]
      | .ok _ => .error .parseTypeMismatch
      | .error e => .error e
    | _ => .error .internalInvariantViolation
  | .mk (.binaryArithmetic op) p [l, r] =>
    match Node.expandAll l, Node.expandAll r with
    | .ok ls, .ok rs => combineVec op p ls rs
    | .error e, _ => .error e
    | .ok _, .error e => .error e
  | .mk (.unaryArithmetic op) p [c] =>
    match Node.expandAll c with
    | .ok es => .ok (es.map (fun e => Node.mk (.unaryArithmetic op) p [e]))
    | .error e => .error e
  | .mk t p cs =>
    match Node.expandChildren cs with
    | .ok cs' => .ok [.mk t p cs']
    | .error e => .error e

/-- Scalar expansion of each node of a children list: each child must expand
to exactly one scalar node (spec section 4.2; a vector where a scalar is
required is a size mismatch). -/
def Node.expandChildren : List Node → Except CompErr (List Node)
  | [] => .ok []
  | c :: cs =>
    match Node.expandAll c, Node.expandChildren cs with
    | .ok [e], .ok rest => .ok (e :: rest)
    | .ok [], _ => .error .parseTypeMismatch
    | .ok (_ :: _ :: _), _ => .error .parseTypeMismatch
    | .error e, _ => .error e
    | .ok _, .error e => .error e

end

/-- Expansion of an expression required to be scalar (a condition, an array
index, an assignment in scalar position): its element list must be a
singleton. -/
def Node.expandOne (n : Node) : Except CompErr Node :=
  match Node.expandAll n with
  | .ok [e] => .ok e
  | .ok _ => .error .parseTypeMismatch
  | .error e => .error e

mutual

/-- Modelled from the spec: the statement-level tree-expansion pass,
`Node::treeExpand` (declared tree.h line 63; the bodies are in an
implementation file not among the sources), following section 4.2.  An
assignment whose sides expand to equal length `k` becomes a block of `k`
scalar assignments (one plain assignment when `k = 1`); differing lengths
are a size-mismatch error (rule 1).  Conditions of `if`/`when`/`while` are
expanded as scalars and the controlled blocks recursively.  The children of
`CallNode` and `EmitNode` are the positions where an immediate list is
legal: a `StaticVectorNode` child remains there, carrying its values (rule
7); other children are expanded as scalars.  Everything else is expanded by
the element-wise expansion, which in particular turns a single-element
`StaticVectorNode` into an `ImmediateNode` (rule 7). -/
def Node.treeExpand : Node → Except CompErr Node
  | .mk .block p cs =>
    match Node.treeExpandList cs with
    | .ok cs' => .ok (.mk .block p cs')
    | .error e => .error e
  | .mk .program p cs =>
    match Node.treeExpandList cs with
    | .ok cs' => .ok (.mk .program p cs')
    | .error e => .error e
  | .mk .assignment p [lhs, rhs] =>
    match Node.expandAll lhs, Node.expandAll rhs with
    | .ok ls, .ok rs =>
      if ls.length = rs.length then
        match List.zipWith (fun l r => Node.mk .assignment p [l, r]) ls rs with
        | [a] => .ok a
        | asgn => .ok (.mk .block p asgn)
      else .error .parseTypeMismatch
    | .error e, _ => .error e
    | .ok _, .error e => .error e
  | .mk (.ifWhen es el) p (cond :: rest) =>
    match Node.expandOne cond, Node.treeExpandList rest with
    | .ok c, .ok rest' => .ok (.mk (.ifWhen es el) p (c :: rest'))
    | .error e, _ => .error e
    | .ok _, .error e => .error e
  | .mk .whileLoop p (cond :: rest) =>
    match Node.expandOne cond, Node.treeExpandList rest with
    | .ok c, .ok rest' => .ok (.mk .whileLoop p (c :: rest'))
    | .error e, _ => .error e
    | .ok _, .error e => .error e
  | .mk (.emitEvent ev a s) p cs =>
    match Node.expandArgs cs with
    | .ok cs' => .ok (.mk (.emitEvent ev a s) p cs')
    | .error e => .error e
  | .mk (.call f aa) p cs =>
    match Node.expandArgs cs with
    | .ok cs' => .ok (.mk (.call f aa) p cs')
    | .error e => .error e
  | .mk t p cs => Node.expandOne (.mk t p cs)

/-- Statement-level expansion of each node of a list of statements. -/
def Node.treeExpandList : List Node → Except CompErr (List Node)
  | [] => .ok []
  | c :: cs =>
    match Node.treeExpand c, Node.treeExpandList cs with
    | .ok c', .ok cs' => .ok (c' :: cs')
    | .error e, _ => .error e
    | .ok _, .error e => .error e

/-- Expansion of the argument children of a `CallNode` or `EmitNode`: a
`StaticVectorNode` remains in place (only its values matter there; its
children vector is unused), anything else expands as a scalar. -/
def Node.expandArgs : List Node → Except CompErr (List Node)
  | [] => .ok []
  | .mk (.staticVector vals) ip _ :: cs =>
    match Node.expandArgs cs with
    | .ok rest => .ok (.mk (.staticVector vals) ip [] :: rest)
    | .error e => .error e
  | c :: cs =>
    match Node.expandOne c, Node.expandArgs cs with
    | .ok c', .ok rest => .ok (c' :: rest)
    | .error e, _ => .error e
    | .ok _, .error e => .error e

end

mutual

/-- No `VectorNode` subclass (`StaticVectorNode` or `MemoryVectorNode`)
occurs anywhere in the tree. -/
def Node.vecFree : Node → Bool
  | .mk t _ cs =>
    (match t with
     | .staticVector _ => false
     | .memoryVector _ _ _ _ => false
     | _ => true) && Node.vecFreeList cs

/-- No `VectorNode` subclass occurs in any tree of the list. -/
def Node.vecFreeList : List Node → Bool
  | [] => true
  | c :: cs => Node.vecFree c && Node.vecFreeList cs

end

/-- A `StaticVectorNode` with an empty children vector, the shape in which
it may remain as a `CallNode`/`EmitNode` argument after expansion. -/
def isStaticEmptyChild : Node → Bool
  | .mk (.staticVector _) _ [] => true
  | _ => false

mutual

/-- The shape of a tree after tree expansion: no `MemoryVectorNode`
anywhere, and `StaticVectorNode` only as a direct child of a `CallNode` or
`EmitNode` (where an immediate list is legal, spec section 4.2 rule 7), with
no children of its own. -/
def Node.expandedOK : Node → Bool
  | .mk t _ cs =>
    match t with
    | .staticVector _ => false
    | .memoryVector _ _ _ _ => false
    | .emitEvent _ _ _ => Node.expandedArgsOK cs
    | .call _ _ => Node.expandedArgsOK cs
    | _ => Node.expandedOKList cs

/-- Post-expansion shape of each node of a statement or children list. -/
def Node.expandedOKList : List Node → Bool
  | [] => true
  | c :: cs => Node.expandedOK c && Node.expandedOKList cs

/-- Post-expansion shape of the arguments of a `CallNode`/`EmitNode`: each
is either a childless `StaticVectorNode` or itself of post-expansion shape. -/
def Node.expandedArgsOK : List Node → Bool
  | [] => true
  | c :: cs => (isStaticEmptyChild c || Node.expandedOK c) && Node.expandedArgsOK cs

end

/-- Wrap an integer to the signed 16-bit two's-complement range of the
target VM (spec sections 4.4 and 6: 16-bit word). -/
def toS16 (x : Int) : Int :=
  (x + 32768) % 65536 - 32768

/-- The unsigned 16-bit pattern of an integer, for the bitwise operators. -/
def toU16 (x : Int) : Nat :=
  (x % 65536).toNat

/-- Evaluation of a comparison operator on two integers, `none` for a
non-comparison operator (used by the dead-branch elimination on folded
comparison-branch nodes, spec section 4.4 rule 5). -/
def evalComparison (op : AsebaBinaryOperator) (a b : Int) : Option Bool :=
  match op with
  | .opEqual => some (a = b)
  | .opNotEqual => some (a ≠ b)
  | .opBiggerThan => some (b < a)
  | .opBiggerEqualThan => some (b ≤ a)
  | .opSmallerThan => some (a < b)
  | .opSmallerEqualThan => some (a ≤ b)
  | _ => none

/-- Modelled from the spec: compile-time evaluation of a binary operator on
two immediates (constant folding, spec section 4.4 rule 1), with
two's-complement 16-bit semantics matching the VM; division or modulo by
zero is a compile-time divide-by-zero error.  Comparisons and the logical
operators produce 0 or 1. -/
def evalBinaryOp (op : AsebaBinaryOperator) (a b : Int) : Except CompErr Int :=
  match op with
  | .opAdd => .ok (toS16 (a + b))
  | .opSub => .ok (toS16 (a - b))
  | .opMult => .ok (toS16 (a * b))
  | .opDiv => if b = 0 then .error .divideByZero else .ok (toS16 (Int.tdiv a b))
  | .opMod => if b = 0 then .error .divideByZero else .ok (toS16 (Int.tmod a b))
  | .opShiftLeft => .ok (toS16 (a * 2 ^ (toU16 b % 16)))
  | .opShiftRight => .ok (toS16 (Int.tdiv a (2 ^ (toU16 b % 16))))
  | .opBitOr => .ok (toS16 (Nat.lor (toU16 a) (toU16 b) : Nat))
  | .opBitXor => .ok (toS16 (Nat.xor (toU16 a) (toU16 b) : Nat))
  | .opBitAnd => .ok (toS16 (Nat.land (toU16 a) (toU16 b) : Nat))
  | .opOr => .ok (if a ≠ 0 ∨ b ≠ 0 then 1 else 0)
  | .opAnd => .ok (if a ≠ 0 ∧ b ≠ 0 then 1 else 0)
  | cmp =>
    match evalComparison cmp a b with
    | some r => .ok (if r then 1 else 0)
    | none => .error .internalInvariantViolation

/-- Modelled from the spec: compile-time evaluation of a unary operator on
an immediate (spec section 4.4 rule 1), with two's-complement 16-bit
semantics; bitwise not is `-a-1` wrapped, logical not maps 0 to 1 and
everything else to 0. -/
def evalUnaryOp (op : AsebaUnaryOperator) (a : Int) : Int :=
  match op with
  | .opNeg => toS16 (-a)
  | .opAbs => toS16 |a|
  | .opBitNot => toS16 (-a - 1)
  | .opNot => if a = 0 then 1 else 0

/-- The negated comparator of a comparison operator (de Morgan
canonicalization, spec section 4.4 rule 3); a non-comparison operator is
returned unchanged. -/
def negateComparisonOp : AsebaBinaryOperator → AsebaBinaryOperator
  | .opEqual => .opNotEqual
  | .opNotEqual => .opEqual
  | .opBiggerThan => .opSmallerEqualThan
  | .opBiggerEqualThan => .opSmallerThan
  | .opSmallerThan => .opBiggerEqualThan
  | .opSmallerEqualThan => .opBiggerThan
  | op => op

mutual

/-- A subtree is side-effect free when it contains no `CallNode` and no
`EmitNode` (spec section 4.4 rule 2: `ArrayRead` is treated as side-effect
free; `Call` and `Emit` are not and block the identity/absorber rewrites). -/
def Node.sideEffectFree : Node → Bool
  | .mk t _ cs =>
    (match t with
     | .call _ _ => false
     | .emitEvent _ _ _ => false
     | _ => true) && Node.sideEffectFreeList cs

/-- Side-effect freedom of each node of a list. -/
def Node.sideEffectFreeList : List Node → Bool
  | [] => true
  | c :: cs => Node.sideEffectFree c && Node.sideEffectFreeList cs

end

/-- An `ImmediateNode`. -/
def Node.isImmediate : Node → Bool
  | .mk (.immediate _) _ _ => true
  | _ => false

/-- A `BlockNode` (precisely a block, not a program). -/
def Node.isBlock : Node → Bool
  | .mk .block _ _ => true
  | _ => false

/-- A two-child `BinaryArithmeticNode` whose operator is a comparison — the
shape the comparison-branch folding of spec section 4.4 rule 4 lifts into a
folded node. -/
def Node.isComparisonTop : Node → Bool
  | .mk (.binaryArithmetic op) _ [_, _] => op.isComparison
  | _ => false

/-- Finish optimizing a `BinaryArithmeticNode` once its two children are
optimized (spec section 4.4 rules 1 and 2): fold two immediates; apply the
identity/absorber rewrites `x+0 → x`, `x-0 → x`, `x*1 → x`, `x*0 → 0`,
`x and true → x`, `x and false → false`, `x or false → x`, `x or true →
true` (the absorbers only when the eliminated subtree is side-effect free,
and with the boolean results of comparisons represented as the immediates 0
and 1); otherwise rebuild the node. -/
def binaryFinish (op : AsebaBinaryOperator) (p : SourcePos) (l r : Node) :
    Except CompErr (Option Node) :=
  match l, r with
  | .mk (.immediate a) _ _, .mk (.immediate b) _ _ =>
    match evalBinaryOp op a b with
    | .ok v => .ok (some (.mk (.immediate v) p []))
    | .error e => .error e
  | l, .mk (.immediate w) _ _ =>
    match op with
    | .opAdd =>
      if w = 0 then .ok (some l)
      else .ok (some (.mk (.binaryArithmetic op) p [l, r]))
    | .opSub =>
      if w = 0 then .ok (some l)
      else .ok (some (.mk (.binaryArithmetic op) p [l, r]))
    | .opMult =>
      if w = 1 then .ok (some l)
      else if w = 0 ∧ l.sideEffectFree then .ok (some (.mk (.immediate 0) p []))
      else .ok (some (.mk (.binaryArithmetic op) p [l, r]))
    | .opAnd =>
      if w ≠ 0 then .ok (some l)
      else if l.sideEffectFree then .ok (some (.mk (.immediate 0) p []))
      else .ok (some (.mk (.binaryArithmetic op) p [l, r]))
    | .opOr =>
      if w = 0 then .ok (some l)
      else if l.sideEffectFree then .ok (some (.mk (.immediate 1) p []))
      else .ok (some (.mk (.binaryArithmetic op) p [l, r]))
    | _ => .ok (some (.mk (.binaryArithmetic op) p [l, r]))
  | _, _ => .ok (some (.mk (.binaryArithmetic op) p [l, r]))

/-- Finish optimizing a `UnaryArithmeticNode` once its child is optimized
(spec section 4.4 rules 1 and 3): fold an immediate child; rewrite
`not (a cmp b)` to `a cmp' b` with the negated comparator; otherwise rebuild
the node. -/
def unaryFinish (op : AsebaUnaryOperator) (p : SourcePos) (c : Node) :
    Except CompErr (Option Node) :=
  match c with
  | .mk (.immediate a) _ _ => .ok (some (.mk (.immediate (evalUnaryOp op a)) p []))
  | .mk (.binaryArithmetic bop) cp [bl, br] =>
    if op = .opNot ∧ bop.isComparison then
      .ok (some (.mk (.binaryArithmetic (negateComparisonOp bop)) cp [bl, br]))
    else .ok (some (.mk (.unaryArithmetic op) p [c]))
  | _ => .ok (some (.mk (.unaryArithmetic op) p [c]))

/-- Finish optimizing an `IfWhenNode` once its condition, then-block and
optional else-block are optimized (spec section 4.4 rules 4 and 5): a
constant condition keeps only the live block (dropping the node entirely
when the dead else-block is absent); a comparison condition is folded into a
`FoldedIfWhenNode` with the comparator and its operands lifted; otherwise
the node is rebuilt. -/
def ifWhenFinish (es : Bool) (el : Nat) (p : SourcePos) (c t : Node) (e : Option Node) :
    Except CompErr (Option Node) :=
  match c with
  | .mk (.immediate v) _ _ => if v ≠ 0 then .ok (some t) else .ok e
  | .mk (.binaryArithmetic op) _ [bl, br] =>
    if op.isComparison then
      .ok (some (.mk (.foldedIfWhen op es el) p ([bl, br, t] ++ e.toList)))
    else .ok (some (.mk (.ifWhen es el) p ([c, t] ++ e.toList)))
  | _ => .ok (some (.mk (.ifWhen es el) p ([c, t] ++ e.toList)))

/-- Finish optimizing a `WhileNode` once its condition and body are
optimized (spec section 4.4 rules 4 and 5): a constant-false condition
removes the loop entirely; a constant-true loop is preserved (an infinite
loop is legal); a comparison condition is folded into a `FoldedWhileNode`;
otherwise the node is rebuilt. -/
def whileFinish (p : SourcePos) (c b : Node) : Except CompErr (Option Node) :=
  match c with
  | .mk (.immediate v) _ _ =>
    if v = 0 then .ok none else .ok (some (.mk .whileLoop p [c, b]))
  | .mk (.binaryArithmetic op) _ [bl, br] =>
    if op.isComparison then .ok (some (.mk (.foldedWhile op) p [bl, br, b]))
    else .ok (some (.mk .whileLoop p [c, b]))
  | _ => .ok (some (.mk .whileLoop p [c, b]))

/-- Finish optimizing a `FoldedIfWhenNode` once its children are optimized
(spec section 4.4 rule 5): when both lifted operands are immediates the
comparison is decided at compile time and only the live block survives;
otherwise the node is rebuilt. -/
def foldedIfWhenFinish (op : AsebaBinaryOperator) (es : Bool) (el : Nat) (p : SourcePos)
    (cs : List Node) : Except CompErr (Option Node) :=
  match cs with
  | .mk (.immediate a) _ _ :: .mk (.immediate b) _ _ :: rest =>
    match evalComparison op a b, rest with
    | some true, t :: _ => .ok (some t)
    | some true, [] => .ok none
    | some false, _ :: e :: _ => .ok (some e)
    | some false, _ => .ok none
    | none, _ => .ok (some (.mk (.foldedIfWhen op es el) p cs))
  | _ => .ok (some (.mk (.foldedIfWhen op es el) p cs))

/-- Finish optimizing a `FoldedWhileNode` once its children are optimized
(spec section 4.4 rule 5): a comparison of two immediates that is false
removes the loop; a true one is preserved; otherwise the node is rebuilt. -/
def foldedWhileFinish (op : AsebaBinaryOperator) (p : SourcePos) (cs : List Node) :
    Except CompErr (Option Node) :=
  match cs with
  | .mk (.immediate a) _ _ :: .mk (.immediate b) _ _ :: _ =>
    match evalComparison op a b with
    | some false => .ok none
    | _ => .ok (some (.mk (.foldedWhile op) p cs))
  | _ => .ok (some (.mk (.foldedWhile op) p cs))

mutual

/-- Modelled from the spec: the optimization pass, `Node::optimize` (tree.h
line 67; of the bodies only `ReturnNode::optimize`, tree.h line 471, which
returns the node unchanged, is among the sources — the rest are modelled
from section 4.4).  Children are optimized first, then the node applies its
own rewrites (the `finish` helpers above): constant folding,
identity/absorber simplification, de Morgan canonicalization of a negated
comparison, comparison-branch folding, dead-branch elimination, and
flattening of a block directly inside a block.  A node returns `none` when
it optimizes away entirely (a removed dead loop or branch); block children
that return `none` are dropped.  Leaf nodes (`ImmediateNode`, `StoreNode`,
`LoadNode`, `EventDeclNode`, `SubDeclNode`, `CallSubNode`, `ReturnNode`,
`StaticVectorNode`) return themselves unchanged.  A residual
`MemoryVectorNode` is an internal invariant violation (spec section 7). -/
def Node.optimize : Node → Except CompErr (Option Node)
  | .mk .block p cs =>
    match Node.optimizeBlockChildren cs with
    | .ok cs' => .ok (some (.mk .block p cs'))
    | .error e => .error e
  | .mk .program p cs =>
    match Node.optimizeBlockChildren cs with
    | .ok cs' => .ok (some (.mk .program p cs'))
    | .error e => .error e
  | .mk .assignment p cs =>
    match Node.optimizeKeep cs with
    | .ok cs' => .ok (some (.mk .assignment p cs'))
    | .error e => .error e
  | .mk (.ifWhen es el) p [cond, thenB] =>
    match Node.optimize cond, Node.optimize thenB with
    | .ok (some c), .ok (some t) => ifWhenFinish es el p c t none
    | .ok none, _ => .error .internalInvariantViolation
    | .ok (some _), .ok none => .error .internalInvariantViolation
    | .error e, _ => .error e
    | .ok (some _), .error e => .error e
  | .mk (.ifWhen es el) p [cond, thenB, elseB] =>
    match Node.optimize cond, Node.optimize thenB, Node.optimize elseB with
    | .ok (some c), .ok (some t), .ok (some e) => ifWhenFinish es el p c t (some e)
    | .ok none, _, _ => .error .internalInvariantViolation
    | .ok (some _), .ok none, _ => .error .internalInvariantViolation
    | .ok (some _), .ok (some _), .ok none => .error .internalInvariantViolation
    | .error e, _, _ => .error e
    | .ok (some _), .error e, _ => .error e
    | .ok (some _), .ok (some _), .error e => .error e
  | .mk (.ifWhen es el) p cs =>
    match Node.optimizeKeep cs with
    | .ok cs' => .ok (some (.mk (.ifWhen es el) p cs'))
    | .error e => .error e
  | .mk .whileLoop p [cond, body] =>
    match Node.optimize cond, Node.optimize body with
    | .ok (some c), .ok (some b) => whileFinish p c b
    | .ok none, _ => .error .internalInvariantViolation
    | .ok (some _), .ok none => .error .internalInvariantViolation
    | .error e, _ => .error e
    | .ok (some _), .error e => .error e
  | .mk .whileLoop p cs =>
    match Node.optimizeKeep cs with
    | .ok cs' => .ok (some (.mk .whileLoop p cs'))
    | .error e => .error e
  | .mk (.foldedIfWhen op es el) p cs =>
    match Node.optimizeKeep cs with
    | .ok cs' => foldedIfWhenFinish op es el p cs'
    | .error e => .error e
  | .mk (.foldedWhile op) p cs =>
    match Node.optimizeKeep cs with
    | .ok cs' => foldedWhileFinish op p cs'
    | .error e => .error e
  | .mk (.binaryArithmetic op) p [l, r] =>
    match Node.optimize l, Node.optimize r with
    | .ok (some l'), .ok (some r') => binaryFinish op p l' r'
    | .ok none, _ => .error .internalInvariantViolation
    | .ok (some _), .ok none => .error .internalInvariantViolation
    | .error e, _ => .error e
    | .ok (some _), .error e => .error e
  | .mk (.binaryArithmetic op) p cs =>
    match Node.optimizeKeep cs with
    | .ok cs' => .ok (some (.mk (.binaryArithmetic op) p cs'))
    | .error e => .error e
  | .mk (.unaryArithmetic op) p [c] =>
    match Node.optimize c with
    | .ok (some c') => unaryFinish op p c'
    | .ok none => .error .internalInvariantViolation
    | .error e => .error e
  | .mk (.unaryArithmetic op) p cs =>
    match Node.optimizeKeep cs with
    | .ok cs' => .ok (some (.mk (.unaryArithmetic op) p cs'))
    | .error e => .error e
  | .mk (.emitEvent ev a s) p cs =>
    match Node.optimizeKeep cs with
    | .ok cs' => .ok (some (.mk (.emitEvent ev a s) p cs'))
    | .error e => .error e
  | .mk (.call f aa) p cs =>
    match Node.optimizeKeep cs with
    | .ok cs' => .ok (some (.mk (.call f aa) p cs'))
    | .error e => .error e
  | .mk (.arrayRead a s nm) p cs =>
    match Node.optimizeKeep cs with
    | .ok cs' => .ok (some (.mk (.arrayRead a s nm) p cs'))
    | .error e => .error e
  | .mk (.arrayWrite a s nm) p cs =>
    match Node.optimizeKeep cs with
    | .ok cs' => .ok (some (.mk (.arrayWrite a s nm) p cs'))
    | .error e => .error e
  | .mk (.memoryVector _ _ _ _) _ _ => .error .internalInvariantViolation
  | .mk t p cs => .ok (some (.mk t p cs))

/-- Optimization of the children of a node that keeps every child slot: a
child optimizing away entirely would leave an expression slot empty, which
is never legal (spec section 4.1), embedded as an internal error. -/
def Node.optimizeKeep : List Node → Except CompErr (List Node)
  | [] => .ok []
  | c :: cs =>
    match Node.optimize c, Node.optimizeKeep cs with
    | .ok (some c'), .ok rest => .ok (c' :: rest)
    | .ok none, _ => .error .internalInvariantViolation
    | .error e, _ => .error e
    | .ok (some _), .error e => .error e

/-- Optimization of the statements of a `BlockNode`/`ProgramNode`: children
that optimize away are dropped, and a child that optimized to a block is
inlined (block flattening, spec section 4.4 rule 6). -/
def Node.optimizeBlockChildren : List Node → Except CompErr (List Node)
  | [] => .ok []
  | c :: cs =>
    match Node.optimize c, Node.optimizeBlockChildren cs with
    | .ok (some (.mk .block _ gs)), .ok rest => .ok (gs ++ rest)
    | .ok (some c'), .ok rest => .ok (c' :: rest)
    | .ok none, .ok rest => .ok rest
    | .error e, _ => .error e
    | .ok _, .error e => .error e

end

/-- No direct child is a `BlockNode` (the shape left by block flattening). -/
def noBlockChildB (cs : List Node) : Bool :=
  cs.all (fun c => !c.isBlock)

/-- The root of a `BinaryArithmeticNode` admits a rewrite of `binaryFinish`:
constant folding (two immediates) or an identity/absorber with the right
operand immediate. -/
def binRedex (op : AsebaBinaryOperator) (l r : Node) : Bool :=
  (l.isImmediate && r.isImmediate) ||
  (match r with
   | .mk (.immediate w) _ _ =>
     match op with
     | .opAdd => w = 0
     | .opSub => w = 0
     | .opMult => (w = 1 : Bool) || ((w = 0 : Bool) && l.sideEffectFree)
     | .opAnd => (w ≠ 0 : Bool) || l.sideEffectFree
     | .opOr => (w = 0 : Bool) || l.sideEffectFree
     | _ => false
   | _ => false)

/-- The root of a `UnaryArithmeticNode` admits a rewrite of `unaryFinish`:
constant folding or de Morgan on a comparison child. -/
def unRedex (op : AsebaUnaryOperator) (c : Node) : Bool :=
  c.isImmediate || ((op = .opNot : Bool) && c.isComparisonTop)

/-- The condition of an `IfWhenNode` admits a rewrite of `ifWhenFinish`:
a constant condition (dead-branch elimination) or a comparison condition
(folding). -/
def condRedex (c : Node) : Bool :=
  c.isImmediate || c.isComparisonTop

/-- The condition of a `WhileNode` is in normal form for `whileFinish`:
a nonzero constant (preserved infinite loop) or neither constant nor
comparison. -/
def whileCondOK (c : Node) : Bool :=
  match c with
  | .mk (.immediate v) _ _ => (v ≠ 0 : Bool)
  | c => !c.isComparisonTop

/-- The children of a `FoldedIfWhenNode` admit the compile-time decision of
`foldedIfWhenFinish`: the two lifted operands are immediates and the
operator is a comparison. -/
def foldedCmpRedex (op : AsebaBinaryOperator) (cs : List Node) : Bool :=
  match cs with
  | .mk (.immediate a) _ _ :: .mk (.immediate b) _ _ :: _ => (evalComparison op a b).isSome
  | _ => false

/-- The children of a `FoldedWhileNode` admit the removal of
`foldedWhileFinish`: two immediate operands whose comparison is false. -/
def foldedWhileRedex (op : AsebaBinaryOperator) (cs : List Node) : Bool :=
  match cs with
  | .mk (.immediate a) _ _ :: .mk (.immediate b) _ _ :: _ =>
    evalComparison op a b = some false
  | _ => false

mutual

/-- A tree is in optimizer normal form: every guard of every rewrite of
`Node.optimize` fails at every node, so a second run of the pass returns the
tree unchanged.  The conditions mirror the `finish` helpers branch by
branch; the nodes that `Node.optimize` returns without visiting children
(the leaf subclasses) are unconditionally normal, and a residual
`MemoryVectorNode` (on which the pass fails) never is. -/
def Node.normB : Node → Bool
  | .mk t _ cs =>
    match t, cs with
    | .block, cs => Node.normListB cs && noBlockChildB cs
    | .program, cs => Node.normListB cs && noBlockChildB cs
    | .ifWhen _ _, [c, t1] => Node.normB c && Node.normB t1 && !condRedex c
    | .ifWhen _ _, [c, t1, e1] =>
      Node.normB c && Node.normB t1 && Node.normB e1 && !condRedex c
    | .ifWhen _ _, cs => Node.normListB cs
    | .whileLoop, [c, b] => Node.normB c && Node.normB b && whileCondOK c
    | .whileLoop, cs => Node.normListB cs
    | .foldedIfWhen op _ _, cs => Node.normListB cs && !foldedCmpRedex op cs
    | .foldedWhile op, cs => Node.normListB cs && !foldedWhileRedex op cs
    | .binaryArithmetic op, [l, r] => Node.normB l && Node.normB r && !binRedex op l r
    | .binaryArithmetic _, cs => Node.normListB cs
    | .unaryArithmetic op, [c] => Node.normB c && !unRedex op c
    | .unaryArithmetic _, cs => Node.normListB cs
    | .assignment, cs => Node.normListB cs
    | .emitEvent _ _ _, cs => Node.normListB cs
    | .call _ _, cs => Node.normListB cs
    | .arrayRead _ _ _, cs => Node.normListB cs
    | .arrayWrite _ _ _, cs => Node.normListB cs
    | .memoryVector _ _ _ _, _ => false
    | _, _ => true

/-- Normal form of each node of a list. -/
def Node.normListB : List Node → Bool
  | [] => true
  | c :: cs => Node.normB c && Node.normListB cs

end

/-- Every tree has positive size. -/
theorem Node.nsize_pos (n : Node) : 0 < n.nsize := by
  obtain ⟨t, p, cs⟩ := n
  simp [Node.nsize]

/-- A member of a list is no larger than the list. -/
theorem Node.nsize_le_of_mem {c : Node} {cs : List Node} (h : c ∈ cs) :
    c.nsize ≤ Node.nsizeList cs := by
  induction cs with
  | nil => cases h
  | cons d ds ih =>
    rcases List.mem_cons.mp h with rfl | h'
    · simp [Node.nsizeList]
    · have := ih h'
      simp [Node.nsizeList]
      omega

/-- A child is strictly smaller than its parent. -/
theorem Node.nsize_child_lt {c : Node} {t : NodeTag} {p : SourcePos} {cs : List Node}
    (h : c ∈ cs) : c.nsize < (Node.mk t p cs).nsize := by
  have := Node.nsize_le_of_mem h
  simp [Node.nsize]
  omega

/-- The size of a list bounds the size of its head and tail. -/
theorem Node.nsizeList_cons (c : Node) (cs : List Node) :
    Node.nsizeList (c :: cs) = c.nsize + Node.nsizeList cs := rfl

/-- Deep copy is the identity in the value embedding: copying every
attribute and recursively every child reproduces the same tree. -/
theorem Node.deepCopy_eq : ∀ n : Node, n.deepCopy = n := by
  suffices h : ∀ N, (∀ n : Node, n.nsize ≤ N → n.deepCopy = n) by
    intro n
    exact h n.nsize n le_rfl
  intro N
  induction N with
  | zero =>
    intro n hn
    have := n.nsize_pos
    omega
  | succ N ih =>
    intro n hn
    obtain ⟨t, p, cs⟩ := n
    have hcs : Node.nsizeList cs ≤ N := by
      simp [Node.nsize] at hn
      omega
    have hlist : ∀ l : List Node, Node.nsizeList l ≤ N → Node.deepCopyList l = l := by
      intro l
      induction l with
      | nil => intro _; rfl
      | cons d ds ihl =>
        intro hl
        rw [Node.nsizeList_cons] at hl
        have hd : d.nsize ≤ N := by
          have := d.nsize_pos
          omega
        have hds : Node.nsizeList ds ≤ N := by
          have := d.nsize_pos
          omega
        simp [Node.deepCopyList, ih d hd, ihl hds]
    simp [Node.deepCopy, hlist cs hcs]

/-- A fixed source position for the concrete witnesses. -/
def pos0 : SourcePos := ⟨0, 0, 0⟩

/-- C9: for every value `v` and bounds `minV ≤ maxV`, `clamp v minV maxV`
lies in `[minV, maxV]`, equals `v` whenever `minV ≤ v ≤ maxV`, and is
idempotent. -/
theorem clamp_spec (v minV maxV : Int) (h : minV ≤ maxV) :
    (minV ≤ clamp v minV maxV ∧ clamp v minV maxV ≤ maxV) ∧
    ((minV ≤ v ∧ v ≤ maxV) → clamp v minV maxV = v) ∧
    clamp (clamp v minV maxV) minV maxV = clamp v minV maxV := by
  unfold clamp
  split_ifs <;> simp_all <;> omega

/-- C9 witness: the clamp properties at `v = 5`, bounds `[0, 10]`. -/
theorem clamp_spec_witness :
    ((0 : Int) ≤ clamp 5 0 10 ∧ clamp 5 0 10 ≤ 10) ∧
    (((0 : Int) ≤ 5 ∧ (5 : Int) ≤ 10) → clamp 5 0 10 = 5) ∧
    clamp (clamp 5 0 10) 0 10 = clamp 5 0 10 :=
  clamp_spec 5 0 10 (by decide)

/-- C10: under the precondition `factor ≠ 0` the assertion of the
`UnifiedTime` division operators cannot fire, and both `operator/` and
`operator/=` produce the unsigned quotient `t.value / factor`. -/
theorem unifiedTime_div_spec (t : UnifiedTime) (factor : Nat) (h : factor ≠ 0) :
    UnifiedTime.divOp t factor = some ⟨t.value / factor⟩ ∧
    UnifiedTime.divAssignOp t factor = some ⟨t.value / factor⟩ := by
  unfold UnifiedTime.divOp UnifiedTime.divAssignOp
  simp [h]

/-- C10 witness: dividing 10 ms by 2. -/
theorem unifiedTime_div_spec_witness :
    UnifiedTime.divOp ⟨10⟩ 2 = some ⟨5⟩ ∧
    UnifiedTime.divAssignOp ⟨10⟩ 2 = some ⟨5⟩ :=
  unifiedTime_div_spec ⟨10⟩ 2 (by decide)

/-- C7: the `LoadNode` built from a `StoreNode` copies exactly the store
node's variable address and source position, has no children, and depends on
nothing else of the store node (in particular not on its identity: two store
nodes with the same address and position yield the same load node, so the
tree keeps no back-pointer). -/
theorem loadNode_ofStoreNode_spec (a : Nat) (p : SourcePos) (cs cs' : List Node) :
    LoadNode.ofStoreNode (.mk (.store a) p cs) = some (.mk (.load a) p []) ∧
    LoadNode.ofStoreNode (.mk (.store a) p cs) =
      LoadNode.ofStoreNode (.mk (.store a) p cs') := by
  simp [LoadNode.ofStoreNode]

/-- C8: shallow copy preserves the variant tag, every attribute (the
attributes are part of the tag) and the source position, and its children
list is the same sequence of child references. -/
theorem shallowCopy_spec (t : NodeTag) (p : SourcePos) (cs : List Node) :
    (Node.shallowCopy (.mk t p cs)).tag = t ∧
    (Node.shallowCopy (.mk t p cs)).sourcePos = p ∧
    (Node.shallowCopy (.mk t p cs)).children = cs := by
  simp [Node.shallowCopy, Node.tag, Node.sourcePos, Node.children]

/-- C6: dumping a deep copy of a node produces exactly the same text as
dumping the node itself, at every indent level. -/
theorem dump_deepCopy (n : Node) (indent : Nat) :
    Node.dump n.deepCopy indent = Node.dump n indent := by
  rw [Node.deepCopy_eq]

/-- C2: `typeCheck` returns `TYPE_INT` on every `ImmediateNode`, `LoadNode`
and `ArrayReadNode`, and `TYPE_UNIT` on every `StoreNode`, `ArrayWriteNode`,
`AssignmentNode` and every statement-level node (`BlockNode`, `ProgramNode`,
`IfWhenNode`, `WhileNode`, `EventDeclNode`, `EmitNode`, `SubDeclNode`,
`CallSubNode`, `CallNode`, `ReturnNode`); for the node kinds that type-check
their children the statement is conditional on the check succeeding. -/
theorem typeCheck_returnTypes (p : SourcePos) (cs : List Node) :
    (∀ v, Node.typeCheck (.mk (.immediate v) p cs) = .ok .int) ∧
    (∀ a, Node.typeCheck (.mk (.load a) p cs) = .ok .int) ∧
    (∀ a s nm, Node.typeCheck (.mk (.arrayRead a s nm) p cs) = .ok .int) ∧
    (∀ a, Node.typeCheck (.mk (.store a) p cs) = .ok .unit) ∧
    (∀ a s nm, Node.typeCheck (.mk (.arrayWrite a s nm) p cs) = .ok .unit) ∧
    (∀ r, Node.typeCheck (.mk .assignment p cs) = .ok r → r = .unit) ∧
    (∀ e, Node.typeCheck (.mk (.eventDecl e) p cs) = .ok .unit) ∧
    (∀ e a s, Node.typeCheck (.mk (.emitEvent e a s) p cs) = .ok .unit) ∧
    (∀ s, Node.typeCheck (.mk (.subDecl s) p cs) = .ok .unit) ∧
    (∀ f aa, Node.typeCheck (.mk (.call f aa) p cs) = .ok .unit) ∧
    Node.typeCheck (.mk .returnStatement p cs) = .ok .unit ∧
    (∀ r, Node.typeCheck (.mk .block p cs) = .ok r → r = .unit) ∧
    (∀ r, Node.typeCheck (.mk .program p cs) = .ok r → r = .unit) ∧
    (∀ r es el, Node.typeCheck (.mk (.ifWhen es el) p cs) = .ok r → r = .unit) ∧
    (∀ r, Node.typeCheck (.mk .whileLoop p cs) = .ok r → r = .unit) ∧
    (∀ r i, Node.typeCheck (.mk (.callSub i) p cs) = .ok r → r = .unit) := by
  refine ⟨fun v => rfl, fun a => rfl, fun a s nm => rfl, fun a => rfl,
    fun a s nm => rfl, ?_, fun e => rfl, fun e a s => rfl, fun s => rfl,
    fun f aa => rfl, rfl, ?_, ?_, ?_, ?_, ?_⟩
  · intro r h
    rw [Node.typeCheck.eq_def] at h
    repeat (first | (split at h) | simp_all)
  · intro r h
    rw [Node.typeCheck.eq_def] at h
    repeat (first | (split at h) | simp_all)
  · intro r h
    rw [Node.typeCheck.eq_def] at h
    repeat (first | (split at h) | simp_all)
  · intro r es el h
    rw [Node.typeCheck.eq_def] at h
    repeat (first | (split at h) | simp_all)
  · intro r h
    rw [Node.typeCheck.eq_def] at h
    repeat (first | (split at h) | simp_all)
  · intro r i h
    rw [Node.typeCheck.eq_def] at h
    repeat (first | (split at h) | simp_all)

/-- C2 witness: the unconditional clauses at an arbitrary node, and the
assignment clause at `x = 3` (a store below an immediate). -/
theorem typeCheck_returnTypes_witness : ReturnType.unit = ReturnType.unit :=
  (typeCheck_returnTypes pos0
      [.mk (.store 0) pos0 [], .mk (.immediate 3) pos0 []]).2.2.2.2.2.1
    ReturnType.unit (by rfl)

/-- C5: `getStackDepth` is 1 on every `ImmediateNode`, every `LoadNode` and
every `StoreNode`, and on a `BinaryArithmeticNode` with children `l` and `r`
it is `max (getStackDepth l) (1 + getStackDepth r)`. -/
theorem getStackDepth_spec (p : SourcePos) (cs : List Node) :
    (∀ v, Node.getStackDepth (.mk (.immediate v) p cs) = 1) ∧
    (∀ a, Node.getStackDepth (.mk (.load a) p cs) = 1) ∧
    (∀ a, Node.getStackDepth (.mk (.store a) p cs) = 1) ∧
    (∀ op l r, Node.getStackDepth (.mk (.binaryArithmetic op) p [l, r]) =
      max (Node.getStackDepth l) (1 + Node.getStackDepth r)) := by
  refine ⟨fun v => rfl, fun a => rfl, fun a => rfl, fun op l r => rfl⟩

/-- C3: constructing an `ArrayReadNode` from an `ArrayWriteNode` fails (with
the `IllegalIndexExpression` error) exactly when the write node's first
child is absent or not an `ImmediateNode`; on success the read node carries
a copy of that immediate index and the write node's `arrayAddr`, `arraySize`
and `arrayName`. -/
theorem arrayRead_ofArrayWrite_spec (addr size : Nat) (nm : String)
    (pos : SourcePos) (cs : List Node) :
    (headIsImmediate cs = true ↔
      ∃ v ip ics rest, cs = .mk (.immediate v) ip ics :: rest) ∧
    (headIsImmediate cs = false ↔
      ArrayReadNode.ofArrayWriteNode (.mk (.arrayWrite addr size nm) pos cs) =
        .error .illegalIndexExpression) ∧
    (∀ v ip ics rest, cs = .mk (.immediate v) ip ics :: rest →
      ArrayReadNode.ofArrayWriteNode (.mk (.arrayWrite addr size nm) pos cs) =
        .ok (.mk (.arrayRead addr size nm) pos [.mk (.immediate v) ip ics])) := by
  refine ⟨?_, ?_, ?_⟩
  · unfold headIsImmediate
    split <;> simp_all
  · unfold headIsImmediate ArrayReadNode.ofArrayWriteNode
    split <;> simp_all
  · intro v ip ics rest h
    subst h
    rfl

/-- C3 witness: a write node with immediate index 1 over the array `arr` at
address 4 of size 3 succeeds and carries the copied index and attributes. -/
theorem arrayRead_ofArrayWrite_witness :
    ArrayReadNode.ofArrayWriteNode
        (.mk (.arrayWrite 4 3 "arr") pos0 [.mk (.immediate 1) pos0 []]) =
      .ok (.mk (.arrayRead 4 3 "arr") pos0 [.mk (.immediate 1) pos0 []]) :=
  (arrayRead_ofArrayWrite_spec 4 3 "arr" pos0 [.mk (.immediate 1) pos0 []]).2.2
    1 pos0 [] [] rfl

/-- Scalar access nodes are vector-free. -/
theorem accessNode_vecFree (w : Bool) (a : Nat) (p : SourcePos) :
    (accessNode w a p).vecFree = true := by
  unfold accessNode
  cases w <;> rfl

/-- Slot expansions are vector-free. -/
theorem expandSlots_vecFree (w : Bool) (a : Nat) (p : SourcePos) (base k : Nat) :
    Node.vecFreeList (expandSlots w a p base k) = true := by
  unfold expandSlots
  induction List.range k with
  | nil => rfl
  | cons i l ih => simp [Node.vecFreeList, accessNode_vecFree, ih]

/-- Immediate expansions are vector-free. -/
theorem expandImmediates_vecFree (values : List Int) (p : SourcePos) :
    Node.vecFreeList (expandImmediates values p) = true := by
  unfold expandImmediates
  induction values with
  | nil => rfl
  | cons v l ih => simp [Node.vecFreeList, Node.vecFree, ih]

/-- Vector-freeness distributes over list append. -/
theorem Node.vecFreeList_append (a b : List Node) :
    Node.vecFreeList (a ++ b) = (Node.vecFreeList a && Node.vecFreeList b) := by
  induction a with
  | nil => simp [Node.vecFreeList]
  | cons c cs ih => simp [Node.vecFreeList, ih, Bool.and_assoc]

/-- The element-wise combination of two vector-free element lists is
vector-free. -/
theorem combineVec_vecFree (op : AsebaBinaryOperator) (p : SourcePos)
    (ls rs out : List Node) (hl : Node.vecFreeList ls = true)
    (hr : Node.vecFreeList rs = true) (h : combineVec op p ls rs = .ok out) :
    Node.vecFreeList out = true := by
  unfold combineVec at h
  split at h
  · cases h
    clear * - hl hr
    induction ls generalizing rs with
    | nil => simp [Node.vecFreeList]
    | cons c cs ih =>
      cases rs with
      | nil => simp [Node.vecFreeList]
      | cons d ds =>
        simp only [Node.vecFreeList, Bool.and_eq_true] at hl hr
        simp [Node.vecFreeList, Node.vecFree, hl.1, hr.1, hl.2, hr.2, ih]
  · split at h
    · cases h
      rename_i e _ _
      simp only [Node.vecFreeList, Bool.and_eq_true, Bool.and_true] at hl
      simp only [Node.deepCopy_eq]
      clear * - hl hr
      induction rs with
      | nil => simp [Node.vecFreeList]
      | cons d ds ih =>
        simp only [Node.vecFreeList, Bool.and_eq_true] at hr
        simp [Node.vecFreeList, Node.vecFree, hl, hr.1, ih hr.2]
    · cases h
      rename_i e _
      simp only [Node.vecFreeList, Bool.and_eq_true, Bool.and_true] at hr
      simp only [Node.deepCopy_eq]
      clear * - hl hr
      induction ls with
      | nil => simp [Node.vecFreeList]
      | cons c cs ih =>
        simp only [Node.vecFreeList, Bool.and_eq_true] at hl
        simp [Node.vecFreeList, Node.vecFree, hr, hl.1, ih hl.2]
    · cases h

/-- Scalar expansion of a children list whose elements all expand to
vector-free element lists yields a vector-free list. -/
theorem Node.expandChildren_vecFree_of (cs : List Node)
    (hA : ∀ c ∈ cs, ∀ es, Node.expandAll c = .ok es → Node.vecFreeList es = true) :
    ∀ cs', Node.expandChildren cs = .ok cs' → Node.vecFreeList cs' = true := by
  induction cs with
  | nil =>
    intro cs' h
    cases h
    rfl
  | cons c cs ih =>
    intro cs' h
    simp only [Node.expandChildren] at h
    split at h
    · cases h
      rename_i e rest heq hrest
      have he : Node.vecFreeList [e] = true := hA c (by simp) [e] heq
      simp only [Node.vecFreeList, Bool.and_eq_true, Bool.and_true] at he
      have hr := ih (fun d hd => hA d (by simp [hd])) rest hrest
      simp [Node.vecFreeList, he, hr]
    · cases h
    · cases h
    · cases h
    · cases h

/-- Vector-freeness of a one-element list is that of its element. -/
theorem Node.vecFreeList_singleton (n : Node) :
    Node.vecFreeList [n] = Node.vecFree n := by
  simp [Node.vecFreeList]

/-- Wrapping each element of a vector-free list in a unary node keeps the
list vector-free. -/
theorem Node.vecFreeList_map_unary (op : AsebaUnaryOperator) (p : SourcePos)
    (es : List Node) (h : Node.vecFreeList es = true) :
    Node.vecFreeList (es.map fun e => Node.mk (.unaryArithmetic op) p [e]) = true := by
  induction es with
  | nil => rfl
  | cons c cs ih =>
    simp only [Node.vecFreeList, Bool.and_eq_true] at h
    simp [Node.vecFreeList, Node.vecFree, h.1, ih h.2]

/-- The element lists produced by the element-wise expansion contain no
`VectorNode` subclass. -/
theorem Node.expandAll_vecFree :
    ∀ (n : Node) (es : List Node), n.expandAll = .ok es → Node.vecFreeList es = true := by
  suffices h : ∀ N (n : Node), n.nsize ≤ N → ∀ es, n.expandAll = .ok es →
      Node.vecFreeList es = true by
    intro n
    exact h n.nsize n le_rfl
  intro N
  induction N with
  | zero =>
    intro n hn
    have := n.nsize_pos
    omega
  | succ N IH =>
    intro n hn es h
    obtain ⟨t, p, cs⟩ := n
    have hn' : Node.nsizeList cs ≤ N := by
      simp [Node.nsize] at hn
      omega
    have hkid : ∀ c ∈ cs, ∀ es', Node.expandAll c = .ok es' →
        Node.vecFreeList es' = true := by
      intro c hc
      refine IH c ?_
      have := Node.nsize_le_of_mem hc
      omega
    rw [Node.expandAll.eq_def] at h
    split at h
    · cases h
      apply expandImmediates_vecFree
    · rename_i orig addr size nm w p2 cs2 heq
      injection heq with ht hp hcs
      subst ht hp hcs
      split at h
      · cases h
        apply expandSlots_vecFree
      · split at h
        · cases h
          rw [Node.vecFreeList_singleton]
          apply accessNode_vecFree
        · cases h
      · split at h
        · cases h
          apply expandSlots_vecFree
        · cases h
      · cases h
      · rename_i index hne1 hne2 hne3
        split at h
        · cases h
          rename_i e heq2
          have he : Node.vecFree e = true := by
            have := hkid index (by simp) [e] heq2
            rwa [Node.vecFreeList_singleton] at this
          rw [Node.vecFreeList_singleton]
          cases w <;> simp [Node.vecFree, Node.vecFreeList, he]
        · cases h
        · cases h
      · cases h
    · rename_i orig op p2 l r heq
      injection heq with ht hp hcs
      subst ht hp hcs
      split at h
      · rename_i ls rs hls hrs
        have hl := hkid l (by simp) ls hls
        have hr := hkid r (by simp) rs hrs
        exact combineVec_vecFree op p ls rs es hl hr h
      · cases h
      · cases h
    · rename_i orig op p2 c heq
      injection heq with ht hp hcs
      subst ht hp hcs
      split at h
      · cases h
        rename_i es0 heq2
        exact Node.vecFreeList_map_unary op p es0 (hkid c (by simp) es0 heq2)
      · cases h
    · rename_i orig t2 p2 cs2 hsv hmv hbin hun heq
      injection heq with ht hp hcs
      subst ht hp hcs
      split at h
      · cases h
        rename_i cs' heq2
        rw [Node.vecFreeList_singleton]
        have hcs' := Node.expandChildren_vecFree_of cs hkid cs' heq2
        cases t <;>
          first
          | exact absurd rfl (hsv _)
          | exact absurd rfl (hmv _ _ _ _)
          | simp [Node.vecFree, hcs']
      · cases h

/-- Pointwise vector-freeness from a vector-free list. -/
theorem Node.vecFreeList_mem {cs : List Node} (h : Node.vecFreeList cs = true)
    {c : Node} (hc : c ∈ cs) : c.vecFree = true := by
  induction cs with
  | nil => cases hc
  | cons d ds ih =>
    simp only [Node.vecFreeList, Bool.and_eq_true] at h
    rcases List.mem_cons.mp hc with rfl | hc'
    · exact h.1
    · exact ih h.2 hc'

/-- A pointwise post-expansion list is post-expansion. -/
theorem Node.expandedOKList_of (cs : List Node)
    (h : ∀ c ∈ cs, c.expandedOK = true) : Node.expandedOKList cs = true := by
  induction cs with
  | nil => rfl
  | cons d ds ih =>
    simp [Node.expandedOKList, h d (by simp), ih (fun c hc => h c (by simp [hc]))]

/-- A pointwise post-expansion list is post-expansion as an argument list. -/
theorem Node.expandedArgsOK_of (cs : List Node)
    (h : ∀ c ∈ cs, c.expandedOK = true) : Node.expandedArgsOK cs = true := by
  induction cs with
  | nil => rfl
  | cons d ds ih =>
    simp [Node.expandedArgsOK, h d (by simp), ih (fun c hc => h c (by simp [hc]))]

/-- A vector-free tree is trivially of post-expansion shape. -/
theorem Node.expandedOK_of_vecFree :
    ∀ n : Node, n.vecFree = true → n.expandedOK = true := by
  suffices h : ∀ N (n : Node), n.nsize ≤ N → n.vecFree = true → n.expandedOK = true by
    intro n
    exact h n.nsize n le_rfl
  intro N
  induction N with
  | zero =>
    intro n hn
    have := n.nsize_pos
    omega
  | succ N IH =>
    intro n hn hv
    obtain ⟨t, p, cs⟩ := n
    simp only [Node.vecFree, Bool.and_eq_true] at hv
    have hk : ∀ c ∈ cs, c.expandedOK = true := by
      intro c hc
      refine IH c ?_ (Node.vecFreeList_mem hv.2 hc)
      have := Node.nsize_le_of_mem hc
      simp [Node.nsize] at hn
      omega
    have hv1 := hv.1
    cases t <;> simp_all [Node.expandedOK] <;>
      first
      | exact Node.expandedOKList_of cs hk
      | exact Node.expandedArgsOK_of cs hk

/-- Statement-level expansion of a list whose elements all expand to
post-expansion trees yields a post-expansion list. -/
theorem Node.treeExpandList_expandedOK_of (cs : List Node)
    (hA : ∀ c ∈ cs, ∀ n', Node.treeExpand c = .ok n' → n'.expandedOK = true) :
    ∀ cs', Node.treeExpandList cs = .ok cs' → Node.expandedOKList cs' = true := by
  induction cs with
  | nil =>
    intro cs' h
    cases h
    rfl
  | cons c cs ih =>
    intro cs' h
    simp only [Node.treeExpandList] at h
    split at h
    · cases h
      rename_i c' rest hc hrest
      simp [Node.expandedOKList, hA c (by simp) c' hc,
        ih (fun d hd => hA d (by simp [hd])) rest hrest]
    · cases h
    · cases h

/-- The scalar expansion of an expression is vector-free. -/
theorem Node.expandOne_vecFree (n e : Node) (h : Node.expandOne n = .ok e) :
    e.vecFree = true := by
  unfold Node.expandOne at h
  split at h
  · cases h
    rename_i heq
    have := Node.expandAll_vecFree n _ heq
    rwa [Node.vecFreeList_singleton] at this
  · cases h
  · cases h

/-- The expansion of `CallNode`/`EmitNode` arguments has post-expansion
shape: kept `StaticVectorNode` arguments are childless, the rest is
vector-free. -/
theorem Node.expandArgs_expandedOK (cs : List Node) :
    ∀ cs', Node.expandArgs cs = .ok cs' → Node.expandedArgsOK cs' = true := by
  induction cs with
  | nil =>
    intro cs' h
    cases h
    rfl
  | cons c cs ih =>
    intro cs' h
    rw [Node.expandArgs.eq_def] at h
    split at h
    · rename_i heq
      simp at heq
    · rename_i orig vals ip children cs2 heq
      injection heq with hc1 hc2
      subst hc1
      subst hc2
      split at h
      · cases h
        rename_i rest hrest
        simp [Node.expandedArgsOK, isStaticEmptyChild, ih rest hrest]
      · cases h
    · rename_i orig c2 cs2 hns heq
      injection heq with hc1 hc2
      subst hc1
      subst hc2
      split at h
      · cases h
        rename_i c' rest hc hrest
        have hc' := Node.expandedOK_of_vecFree c' (Node.expandOne_vecFree c c' hc)
        simp [Node.expandedArgsOK, hc', ih rest hrest]
      · cases h
      · cases h

/-- The scalar assignments zipped from two vector-free element lists have
post-expansion shape. -/
theorem Node.zipAssign_expandedOK (p : SourcePos) (ls rs : List Node)
    (hl : Node.vecFreeList ls = true) (hr : Node.vecFreeList rs = true) :
    Node.expandedOKList
      (List.zipWith (fun l r => Node.mk .assignment p [l, r]) ls rs) = true := by
  induction ls generalizing rs with
  | nil => rfl
  | cons c cs ih =>
    cases rs with
    | nil => rfl
    | cons d ds =>
      simp only [Node.vecFreeList, Bool.and_eq_true] at hl hr
      have h1 := Node.expandedOK_of_vecFree c hl.1
      have h2 := Node.expandedOK_of_vecFree d hr.1
      simp [Node.expandedOKList, Node.expandedOK, h1, h2, ih ds hl.2 hr.2]

/-- C1 (amended): after the tree-expansion pass succeeds, no
`MemoryVectorNode` remains anywhere in the tree, and a `StaticVectorNode`
remains only as a childless direct argument of a `CallNode` or `EmitNode`
(where an immediate list is legal); everywhere else both `VectorNode`
subclasses are gone. -/
theorem treeExpand_expandedOK :
    ∀ n n' : Node, Node.treeExpand n = .ok n' → n'.expandedOK = true := by
  suffices h : ∀ N (n : Node), n.nsize ≤ N → ∀ n', n.treeExpand = .ok n' →
      n'.expandedOK = true by
    intro n
    exact h n.nsize n le_rfl
  intro N
  induction N with
  | zero =>
    intro n hn
    have := n.nsize_pos
    omega
  | succ N IH =>
    intro n hn n' h
    obtain ⟨t, p, cs⟩ := n
    have hn' : Node.nsizeList cs ≤ N := by
      simp [Node.nsize] at hn
      omega
    have hkid : ∀ c ∈ cs, ∀ m, Node.treeExpand c = .ok m → m.expandedOK = true := by
      intro c hc
      refine IH c ?_
      have := Node.nsize_le_of_mem hc
      omega
    rw [Node.treeExpand.eq_def] at h
    split at h
    · rename_i orig p2 cs2 heq
      injection heq with ht hp hcs
      subst ht hp hcs
      split at h
      · cases h
        rename_i cs' heq2
        simp only [Node.expandedOK]
        exact Node.treeExpandList_expandedOK_of cs hkid cs' heq2
      · cases h
    · rename_i orig p2 cs2 heq
      injection heq with ht hp hcs
      subst ht hp hcs
      split at h
      · cases h
        rename_i cs' heq2
        simp only [Node.expandedOK]
        exact Node.treeExpandList_expandedOK_of cs hkid cs' heq2
      · cases h
    · rename_i orig p2 lhs rhs heq
      injection heq with ht hp hcs
      subst ht hp hcs
      split at h
      · rename_i ls rs hls hrs
        split at h
        · have hl := Node.expandAll_vecFree lhs ls hls
          have hr := Node.expandAll_vecFree rhs rs hrs
          have hz := Node.zipAssign_expandedOK p ls rs hl hr
          split at h
          · cases h
            rename_i a heq2
            rw [heq2] at hz
            simp only [Node.expandedOKList, Bool.and_eq_true] at hz
            exact hz.1
          · cases h
            simp only [Node.expandedOK]
            exact hz
        · cases h
      · cases h
      · cases h
    · rename_i orig es2 el2 p2 cond rest heq
      injection heq with ht hp hcs
      subst ht hp hcs
      split at h
      · cases h
        rename_i c rest' hc hrest
        have hc' := Node.expandedOK_of_vecFree c (Node.expandOne_vecFree cond c hc)
        have hr' := Node.treeExpandList_expandedOK_of rest
          (fun d hd => hkid d (by simp [hd])) rest' hrest
        simp [Node.expandedOK, Node.expandedOKList, hc', hr']
      · cases h
      · cases h
    · rename_i orig p2 cond rest heq
      injection heq with ht hp hcs
      subst ht hp hcs
      split at h
      · cases h
        rename_i c rest' hc hrest
        have hc' := Node.expandedOK_of_vecFree c (Node.expandOne_vecFree cond c hc)
        have hr' := Node.treeExpandList_expandedOK_of rest
          (fun d hd => hkid d (by simp [hd])) rest' hrest
        simp [Node.expandedOK, Node.expandedOKList, hc', hr']
      · cases h
      · cases h
    · rename_i orig ev a s p2 cs2 heq
      injection heq with ht hp hcs
      subst ht hp hcs
      split at h
      · cases h
        rename_i cs' heq2
        simp only [Node.expandedOK]
        exact Node.expandArgs_expandedOK cs cs' heq2
      · cases h
    · rename_i orig f aa p2 cs2 heq
      injection heq with ht hp hcs
      subst ht hp hcs
      split at h
      · cases h
        rename_i cs' heq2
        simp only [Node.expandedOK]
        exact Node.expandArgs_expandedOK cs cs' heq2
      · cases h
    · exact Node.expandedOK_of_vecFree n' (Node.expandOne_vecFree _ n' h)

/-- A call node carrying a two-element constant vector argument: the input
of the C1 counterexample. -/
def c1node : Node :=
  .mk (.call 0 []) pos0 [.mk (.staticVector [1, 2]) pos0 []]

/-- C1 counterexample: tree expansion succeeds on `c1node` and returns it
unchanged, yet a `VectorNode` subclass (the `StaticVectorNode` argument of
the native call) remains in the resulting tree — the claim that no
`VectorNode` subclass remains after tree expansion fails at this input. -/
theorem treeExpand_keeps_staticVector :
    Node.treeExpand c1node = .ok c1node ∧ c1node.vecFree = false :=
  ⟨rfl, rfl⟩

/-- C1 witness: the amended claim applied to the expansion of the scalar
assignment `x = [1]` (a write memory vector below a one-element constant
vector), which expands to `Store(0) := Immediate 1`. -/
theorem treeExpand_expandedOK_witness :
    (Node.mk .assignment pos0
        [Node.mk (.store 0) pos0 [], Node.mk (.immediate 1) pos0 []]).expandedOK = true :=
  treeExpand_expandedOK
    (Node.mk .assignment pos0
      [Node.mk (.memoryVector 0 1 "x" true) pos0 [],
       Node.mk (.staticVector [1]) pos0 []])
    (Node.mk .assignment pos0
      [Node.mk (.store 0) pos0 [], Node.mk (.immediate 1) pos0 []])
    rfl

/-- Pointwise normal form from a normal list. -/
theorem Node.normListB_mem {cs : List Node} (h : Node.normListB cs = true)
    {c : Node} (hc : c ∈ cs) : c.normB = true := by
  induction cs with
  | nil => cases hc
  | cons d ds ih =>
    simp only [Node.normListB, Bool.and_eq_true] at h
    rcases List.mem_cons.mp hc with rfl | hc'
    · exact h.1
    · exact ih h.2 hc'

/-- Normality distributes over list append. -/
theorem Node.normListB_append (a b : List Node) :
    Node.normListB (a ++ b) = (Node.normListB a && Node.normListB b) := by
  induction a with
  | nil => simp [Node.normListB]
  | cons c cs ih => simp [Node.normListB, ih, Bool.and_assoc]

/-- A pointwise normal list is normal. -/
theorem Node.normListB_of (cs : List Node) (h : ∀ c ∈ cs, c.normB = true) :
    Node.normListB cs = true := by
  induction cs with
  | nil => rfl
  | cons d ds ih =>
    simp [Node.normListB, h d (by simp), ih (fun c hc => h c (by simp [hc]))]

/-- Keep-style child optimization of individually fixed children returns the
list unchanged. -/
theorem Node.optimizeKeep_of_fixed (cs : List Node)
    (h : ∀ c ∈ cs, c.optimize = .ok (some c)) :
    Node.optimizeKeep cs = .ok cs := by
  induction cs with
  | nil => rfl
  | cons c cs ih =>
    simp only [Node.optimizeKeep]
    rw [h c (by simp), ih (fun d hd => h d (by simp [hd]))]

/-- Block-child optimization of individually fixed non-block children
returns the list unchanged. -/
theorem Node.optimizeBlockChildren_of_fixed (cs : List Node)
    (h : ∀ c ∈ cs, c.optimize = .ok (some c)) (hb : noBlockChildB cs = true) :
    Node.optimizeBlockChildren cs = .ok cs := by
  induction cs with
  | nil => rfl
  | cons c cs ih =>
    simp only [noBlockChildB, List.all_cons, Bool.and_eq_true] at hb
    simp only [Node.optimizeBlockChildren]
    rw [h c (by simp), ih (fun d hd => h d (by simp [hd])) (by
      simp [noBlockChildB]
      intro d hd
      have := hb.2
      simp [noBlockChildB] at this
      exact this d hd)]
    obtain ⟨t, pc, gs⟩ := c
    cases t <;> simp_all [Node.isBlock]

/-- A binary node with no root redex is rebuilt unchanged. -/
theorem binaryFinish_self (op : AsebaBinaryOperator) (p : SourcePos) (l r : Node)
    (h : binRedex op l r = false) :
    binaryFinish op p l r = .ok (some (.mk (.binaryArithmetic op) p [l, r])) := by
  unfold binRedex at h
  unfold binaryFinish
  split
  · rename_i a pa ca b pb cb
    simp [Node.isImmediate] at h
  · rename_i l2 w pw cw
    split <;> rename_i hop <;> simp_all [Node.isImmediate]
  · rfl

/-- A unary node with no root redex is rebuilt unchanged. -/
theorem unaryFinish_self (op : AsebaUnaryOperator) (p : SourcePos) (c : Node)
    (h : unRedex op c = false) :
    unaryFinish op p c = .ok (some (.mk (.unaryArithmetic op) p [c])) := by
  unfold unRedex at h
  unfold unaryFinish
  split
  · rename_i a pa ca
    simp [Node.isImmediate] at h
  · rename_i bop cp bl br
    simp only [Node.isImmediate, Node.isComparisonTop, Bool.false_or,
      Bool.and_eq_false_iff] at h
    split
    · rename_i hcond
      rcases h with h | h
      · simp [decide_eq_true_eq] at h
        exact absurd hcond.1 h
      · exact absurd hcond.2 (by simp_all)
    · rfl
  · rfl

/-- An if/when whose condition admits no rewrite is rebuilt unchanged
(two-child form). -/
theorem ifWhenFinish_self2 (es : Bool) (el : Nat) (p : SourcePos) (c t : Node)
    (h : condRedex c = false) :
    ifWhenFinish es el p c t none = .ok (some (.mk (.ifWhen es el) p [c, t])) := by
  unfold condRedex at h
  simp only [Bool.or_eq_false_iff] at h
  unfold ifWhenFinish
  split
  · rename_i v pv cv
    simp [Node.isImmediate] at h
  · rename_i op cp bl br
    have : op.isComparison = false := by
      have := h.2
      simpa [Node.isComparisonTop] using this
    simp [this, Option.toList]
  · simp [Option.toList]

/-- An if/when whose condition admits no rewrite is rebuilt unchanged
(three-child form). -/
theorem ifWhenFinish_self3 (es : Bool) (el : Nat) (p : SourcePos) (c t e : Node)
    (h : condRedex c = false) :
    ifWhenFinish es el p c t (some e) =
      .ok (some (.mk (.ifWhen es el) p [c, t, e])) := by
  unfold condRedex at h
  simp only [Bool.or_eq_false_iff] at h
  unfold ifWhenFinish
  split
  · rename_i v pv cv
    simp [Node.isImmediate] at h
  · rename_i op cp bl br
    have : op.isComparison = false := by
      have := h.2
      simpa [Node.isComparisonTop] using this
    simp [this, Option.toList]
  · simp [Option.toList]

/-- A while whose condition is in normal shape is rebuilt unchanged. -/
theorem whileFinish_self (p : SourcePos) (c b : Node)
    (h : whileCondOK c = true) :
    whileFinish p c b = .ok (some (.mk .whileLoop p [c, b])) := by
  unfold whileCondOK at h
  unfold whileFinish
  split
  · rename_i v pv cv
    simp only [decide_eq_true_eq] at h
    simp [h]
  · rename_i op cp bl br
    have : op.isComparison = false := by
      simpa [Node.isComparisonTop] using h
    simp [this]
  · rfl

/-- A folded if/when that cannot be decided at compile time is rebuilt
unchanged. -/
theorem foldedIfWhenFinish_self (op : AsebaBinaryOperator) (es : Bool) (el : Nat)
    (p : SourcePos) (cs : List Node) (h : foldedCmpRedex op cs = false) :
    foldedIfWhenFinish op es el p cs =
      .ok (some (.mk (.foldedIfWhen op es el) p cs)) := by
  unfold foldedCmpRedex at h
  unfold foldedIfWhenFinish
  split
  · rename_i a pa ca b pb cb rest
    have hev : evalComparison op a b = none := by
      cases hev : evalComparison op a b
      · rfl
      · simp [hev] at h
    rw [hev]
  · rfl

/-- A folded while that is not removed is rebuilt unchanged. -/
theorem foldedWhileFinish_self (op : AsebaBinaryOperator) (p : SourcePos)
    (cs : List Node) (h : foldedWhileRedex op cs = false) :
    foldedWhileFinish op p cs = .ok (some (.mk (.foldedWhile op) p cs)) := by
  unfold foldedWhileRedex at h
  unfold foldedWhileFinish
  split
  · rename_i a pa ca b pb cb rest
    simp only [decide_eq_false_iff_not] at h
    split
    · simp_all
    · rfl
  · rfl

/-- A tree in optimizer normal form is a fixed point of the pass: the
optimizer returns it unchanged. -/
theorem Node.optimize_of_normB :
    ∀ n : Node, n.normB = true → n.optimize = .ok (some n) := by
  suffices h : ∀ N (n : Node), n.nsize ≤ N → n.normB = true →
      n.optimize = .ok (some n) by
    intro n
    exact h n.nsize n le_rfl
  intro N
  induction N with
  | zero =>
    intro n hn
    have := n.nsize_pos
    omega
  | succ N IH =>
    intro n hn hv
    obtain ⟨t, p, cs⟩ := n
    have hkid : ∀ c ∈ cs, c.normB = true → c.optimize = .ok (some c) := by
      intro c hc
      refine IH c ?_
      have := Node.nsize_le_of_mem hc
      simp [Node.nsize] at hn
      omega
    cases t with
    | block =>
      simp only [Node.normB, Bool.and_eq_true] at hv
      simp only [Node.optimize]
      rw [Node.optimizeBlockChildren_of_fixed cs
        (fun c hc => hkid c hc (Node.normListB_mem hv.1 hc)) hv.2]
    | program =>
      simp only [Node.normB, Bool.and_eq_true] at hv
      simp only [Node.optimize]
      rw [Node.optimizeBlockChildren_of_fixed cs
        (fun c hc => hkid c hc (Node.normListB_mem hv.1 hc)) hv.2]
    | assignment =>
      simp only [Node.normB] at hv
      simp only [Node.optimize]
      rw [Node.optimizeKeep_of_fixed cs
        (fun c hc => hkid c hc (Node.normListB_mem hv hc))]
    | ifWhen es el =>
      rcases cs with _ | ⟨c, _ | ⟨t1, _ | ⟨e1, rest⟩⟩⟩
      · simp [Node.optimize, Node.optimizeKeep]
      · simp only [Node.normB] at hv
        simp only [Node.optimize]
        rw [Node.optimizeKeep_of_fixed _
          (fun d hd => hkid d hd (Node.normListB_mem hv hd))]
      · simp only [Node.normB, Bool.and_eq_true] at hv
        simp only [Node.optimize]
        rw [hkid c (by simp) hv.1.1, hkid t1 (by simp) hv.1.2]
        exact ifWhenFinish_self2 es el p c t1 (by simpa using hv.2)
      · rcases rest with _ | ⟨x, xs⟩
        · simp only [Node.normB, Bool.and_eq_true] at hv
          simp only [Node.optimize]
          rw [hkid c (by simp) hv.1.1.1, hkid t1 (by simp) hv.1.1.2,
            hkid e1 (by simp) hv.1.2]
          exact ifWhenFinish_self3 es el p c t1 e1 (by simpa using hv.2)
        · simp only [Node.normB] at hv
          simp only [Node.optimize]
          rw [Node.optimizeKeep_of_fixed _
            (fun d hd => hkid d hd (Node.normListB_mem hv hd))]
    | whileLoop =>
      rcases cs with _ | ⟨c, _ | ⟨b, _ | ⟨x, xs⟩⟩⟩
      · simp [Node.optimize, Node.optimizeKeep]
      · simp only [Node.normB] at hv
        simp only [Node.optimize]
        rw [Node.optimizeKeep_of_fixed _
          (fun d hd => hkid d hd (Node.normListB_mem hv hd))]
      · simp only [Node.normB, Bool.and_eq_true] at hv
        simp only [Node.optimize]
        rw [hkid c (by simp) hv.1.1, hkid b (by simp) hv.1.2]
        exact whileFinish_self p c b hv.2
      · simp only [Node.normB] at hv
        simp only [Node.optimize]
        rw [Node.optimizeKeep_of_fixed _
          (fun d hd => hkid d hd (Node.normListB_mem hv hd))]
    | foldedIfWhen op es el =>
      simp only [Node.normB, Bool.and_eq_true] at hv
      simp only [Node.optimize]
      rw [Node.optimizeKeep_of_fixed cs
        (fun c hc => hkid c hc (Node.normListB_mem hv.1 hc))]
      exact foldedIfWhenFinish_self op es el p cs (by simpa using hv.2)
    | foldedWhile op =>
      simp only [Node.normB, Bool.and_eq_true] at hv
      simp only [Node.optimize]
      rw [Node.optimizeKeep_of_fixed cs
        (fun c hc => hkid c hc (Node.normListB_mem hv.1 hc))]
      exact foldedWhileFinish_self op p cs (by simpa using hv.2)
    | binaryArithmetic op =>
      rcases cs with _ | ⟨l, _ | ⟨r, _ | ⟨x, xs⟩⟩⟩
      · simp [Node.optimize, Node.optimizeKeep]
      · simp only [Node.normB] at hv
        simp only [Node.optimize]
        rw [Node.optimizeKeep_of_fixed _
          (fun d hd => hkid d hd (Node.normListB_mem hv hd))]
      · simp only [Node.normB, Bool.and_eq_true] at hv
        simp only [Node.optimize]
        rw [hkid l (by simp) hv.1.1, hkid r (by simp) hv.1.2]
        exact binaryFinish_self op p l r (by simpa using hv.2)
      · simp only [Node.normB] at hv
        simp only [Node.optimize]
        rw [Node.optimizeKeep_of_fixed _
          (fun d hd => hkid d hd (Node.normListB_mem hv hd))]
    | unaryArithmetic op =>
      rcases cs with _ | ⟨c, _ | ⟨x, xs⟩⟩
      · simp [Node.optimize, Node.optimizeKeep]
      · simp only [Node.normB, Bool.and_eq_true] at hv
        simp only [Node.optimize]
        rw [hkid c (by simp) hv.1]
        exact unaryFinish_self op p c (by simpa using hv.2)
      · simp only [Node.normB] at hv
        simp only [Node.optimize]
        rw [Node.optimizeKeep_of_fixed _
          (fun d hd => hkid d hd (Node.normListB_mem hv hd))]
    | emitEvent ev a s =>
      simp only [Node.normB] at hv
      simp only [Node.optimize]
      rw [Node.optimizeKeep_of_fixed cs
        (fun c hc => hkid c hc (Node.normListB_mem hv hc))]
    | call f aa =>
      simp only [Node.normB] at hv
      simp only [Node.optimize]
      rw [Node.optimizeKeep_of_fixed cs
        (fun c hc => hkid c hc (Node.normListB_mem hv hc))]
    | arrayRead a s nm =>
      simp only [Node.normB] at hv
      simp only [Node.optimize]
      rw [Node.optimizeKeep_of_fixed cs
        (fun c hc => hkid c hc (Node.normListB_mem hv hc))]
    | arrayWrite a s nm =>
      simp only [Node.normB] at hv
      simp only [Node.optimize]
      rw [Node.optimizeKeep_of_fixed cs
        (fun c hc => hkid c hc (Node.normListB_mem hv hc))]
    | memoryVector a s nm w => simp [Node.normB] at hv
    | eventDecl e => rfl
    | subDecl s => rfl
    | callSub s => rfl
    | returnStatement => rfl
    | immediate v => rfl
    | store a => rfl
    | load a => rfl
    | staticVector vs => rfl

/-- Keep-style optimization preserves the number of children. -/
theorem Node.optimizeKeep_length :
    ∀ cs cs' : List Node, Node.optimizeKeep cs = .ok cs' → cs'.length = cs.length := by
  intro cs
  induction cs with
  | nil =>
    intro cs' h
    cases h
    rfl
  | cons c cs ih =>
    intro cs' h
    simp only [Node.optimizeKeep] at h
    split at h
    · cases h
      rename_i c' rest hc hrest
      simp [ih rest hrest]
    · cases h
    · cases h
    · cases h

/-- The outputs of keep-style child optimization are all normal, given that
every child only optimizes to normal trees. -/
theorem Node.optimizeKeepA (cs : List Node)
    (hA : ∀ c ∈ cs, ∀ m, c.optimize = .ok (some m) → m.normB = true) :
    ∀ cs', Node.optimizeKeep cs = .ok cs' → Node.normListB cs' = true := by
  induction cs with
  | nil =>
    intro cs' h
    cases h
    rfl
  | cons c cs ih =>
    intro cs' h
    simp only [Node.optimizeKeep] at h
    split at h
    · cases h
      rename_i c' rest hc hrest
      simp [Node.normListB, hA c (by simp) c' hc,
        ih (fun d hd => hA d (by simp [hd])) rest hrest]
    · cases h
    · cases h
    · cases h

/-- The outputs of block-child optimization are all normal and none is a
block, given that every child only optimizes to normal trees. -/
theorem Node.optimizeBlockChildrenA (cs : List Node)
    (hA : ∀ c ∈ cs, ∀ m, c.optimize = .ok (some m) → m.normB = true) :
    ∀ cs', Node.optimizeBlockChildren cs = .ok cs' →
      Node.normListB cs' = true ∧ noBlockChildB cs' = true := by
  induction cs with
  | nil =>
    intro cs' h
    cases h
    exact ⟨rfl, rfl⟩
  | cons c cs ih =>
    intro cs' h
    simp only [Node.optimizeBlockChildren] at h
    split at h
    · cases h
      rename_i pg gs rest hc hrest
      have hg := hA c (by simp) _ hc
      simp only [Node.normB, Bool.and_eq_true] at hg
      have hr := ih (fun d hd => hA d (by simp [hd])) rest hrest
      constructor
      · rw [Node.normListB_append]
        simp [hg.1, hr.1]
      · simp only [noBlockChildB, List.all_append, Bool.and_eq_true]
        refine ⟨?_, hr.2⟩
        have := hg.2
        simpa [noBlockChildB] using this
    · cases h
      rename_i c' rest hnb hc hrest
      have hc' := hA c (by simp) c' hc
      have hr := ih (fun d hd => hA d (by simp [hd])) rest hrest
      constructor
      · simp [Node.normListB, hc', hr.1]
      · simp only [noBlockChildB, List.all_cons, Bool.and_eq_true]
        refine ⟨?_, by simpa [noBlockChildB] using hr.2⟩
        obtain ⟨tc, pc, gc⟩ := c'
        cases tc <;> simp [Node.isBlock]
        exact hnb pc gc rfl
    · cases h
      rename_i rest hc hrest
      exact ih (fun d hd => hA d (by simp [hd])) _ hrest
    · cases h
    · cases h

/-- A node that matches no immediate pattern is not an immediate. -/
theorem Node.isImmediate_false_of (c : Node)
    (h : ∀ (v : Int) (pv : SourcePos) (cv : List Node),
      c = .mk (.immediate v) pv cv → False) : c.isImmediate = false := by
  obtain ⟨t, p, cs⟩ := c
  cases t <;> simp [Node.isImmediate]
  exact h _ _ _ rfl

/-- A node that matches no two-child binary pattern has no comparison top. -/
theorem Node.isComparisonTop_false_of (c : Node)
    (h : ∀ (op : AsebaBinaryOperator) (cp : SourcePos) (l r : Node),
      c = .mk (.binaryArithmetic op) cp [l, r] → False) :
    c.isComparisonTop = false := by
  obtain ⟨t, p, cs⟩ := c
  cases t <;> simp [Node.isComparisonTop]

/-- For a comparison operator the only binary redex is constant folding. -/
theorem binRedex_comparison (op : AsebaBinaryOperator) (l r : Node)
    (h : op.isComparison = true) :
    binRedex op l r = (l.isImmediate && r.isImmediate) := by
  unfold binRedex
  split
  · cases op <;> simp_all [AsebaBinaryOperator.isComparison]
  · simp

/-- The negated comparator of a comparison is a comparison. -/
theorem negateComparisonOp_isComparison (op : AsebaBinaryOperator)
    (h : op.isComparison = true) :
    (negateComparisonOp op).isComparison = true := by
  cases op <;> simp_all [AsebaBinaryOperator.isComparison, negateComparisonOp]

/-- A binary node whose right operand is not an immediate has no root
redex. -/
theorem binRedex_false_of_notImm (op : AsebaBinaryOperator) (l r : Node)
    (hr : r.isImmediate = false) : binRedex op l r = false := by
  unfold binRedex
  obtain ⟨t, pr, cr⟩ := r
  cases t <;> simp_all [Node.isImmediate]

/-- Finishing a binary node after child optimization only produces normal
trees from normal children. -/
theorem binaryFinishA (op : AsebaBinaryOperator) (p : SourcePos) (l r m : Node)
    (h : binaryFinish op p l r = .ok (some m)) (hl : l.normB = true)
    (hr : r.normB = true) : m.normB = true := by
  unfold binaryFinish at h
  split at h
  · split at h
    · cases h
      rfl
    · cases h
  · rename_i l2 r2 w pw cw hnotimm
    have hlimm : l.isImmediate = false := Node.isImmediate_false_of l hnotimm
    cases op <;> dsimp only at h <;>
      [skip; skip; skip; skip; skip; skip; skip; skip; skip; skip; skip; skip;
       skip; skip; skip; skip; skip; skip] <;>
      (repeat split_ifs at h) <;> cases h <;>
      first
      | rfl
      | exact hl
      | (simp_all [Node.normB, binRedex, Node.isImmediate] <;> tauto)
  · rename_i hn1 hn2
    have hrimm : r.isImmediate = false := by
      refine Node.isImmediate_false_of r ?_
      intro v pv cv hv
      exact hn1 v pv cv hv
    cases h
    simp [Node.normB, hl, hr, binRedex_false_of_notImm op l r hrimm]

/-- A folded if/when whose two head operands are not both immediates has no
compile-time decision. -/
theorem foldedCmpRedex_false_of (op : AsebaBinaryOperator) (l r : Node)
    (rest : List Node) (h : (l.isImmediate && r.isImmediate) = false) :
    foldedCmpRedex op (l :: r :: rest) = false := by
  unfold foldedCmpRedex
  split
  · rename_i a pa ca b pb cb heq
    injection heq with h1 h2
    injection h2 with h2 h3
    subst h1 h2
    simp [Node.isImmediate] at h
  · rfl

/-- A folded if/when whose children are not two immediates followed by
anything has no compile-time decision. -/
theorem foldedCmpRedex_false_of_shape (op : AsebaBinaryOperator) (cs : List Node)
    (h : ∀ (a : Int) (pa : SourcePos) (ca : List Node) (b : Int) (pb : SourcePos)
      (cb : List Node) (rest : List Node),
      cs = .mk (.immediate a) pa ca :: .mk (.immediate b) pb cb :: rest → False) :
    foldedCmpRedex op cs = false := by
  unfold foldedCmpRedex
  split
  · rename_i a pa ca b pb cb rest
    exact absurd rfl (h a pa ca b pb cb rest)
  · rfl

/-- A folded while whose two head operands are not both immediates is not
removable. -/
theorem foldedWhileRedex_false_of (op : AsebaBinaryOperator) (l r : Node)
    (rest : List Node) (h : (l.isImmediate && r.isImmediate) = false) :
    foldedWhileRedex op (l :: r :: rest) = false := by
  unfold foldedWhileRedex
  split
  · rename_i a pa ca b pb cb heq
    injection heq with h1 h2
    injection h2 with h2 h3
    subst h1 h2
    simp [Node.isImmediate] at h
  · rfl

/-- A folded while whose children are not two immediates followed by
anything is not removable. -/
theorem foldedWhileRedex_false_of_shape (op : AsebaBinaryOperator) (cs : List Node)
    (h : ∀ (a : Int) (pa : SourcePos) (ca : List Node) (b : Int) (pb : SourcePos)
      (cb : List Node) (rest : List Node),
      cs = .mk (.immediate a) pa ca :: .mk (.immediate b) pb cb :: rest → False) :
    foldedWhileRedex op cs = false := by
  unfold foldedWhileRedex
  split
  · rename_i a pa ca b pb cb rest
    exact absurd rfl (h a pa ca b pb cb rest)
  · rfl

/-- A non-immediate condition is in normal while shape exactly when it has
no comparison top. -/
theorem whileCondOK_of_notImm (c : Node)
    (h : ∀ (v : Int) (pv : SourcePos) (cv : List Node),
      c = .mk (.immediate v) pv cv → False) :
    whileCondOK c = !c.isComparisonTop := by
  obtain ⟨t, p, cs⟩ := c
  cases t <;> simp_all [whileCondOK]

/-- One-step normal form equation for a two-child binary node. -/
theorem Node.normB_bin_eq (op : AsebaBinaryOperator) (p : SourcePos) (l r : Node) :
    (Node.mk (.binaryArithmetic op) p [l, r]).normB =
      (l.normB && r.normB && !binRedex op l r) := rfl

/-- One-step normal form equation for a one-child unary node. -/
theorem Node.normB_unary_eq (op : AsebaUnaryOperator) (p : SourcePos) (c : Node) :
    (Node.mk (.unaryArithmetic op) p [c]).normB = (c.normB && !unRedex op c) := rfl

/-- One-step normal form equation for a two-child if/when node. -/
theorem Node.normB_ifWhen2_eq (es : Bool) (el : Nat) (p : SourcePos) (c t : Node) :
    (Node.mk (.ifWhen es el) p [c, t]).normB =
      (c.normB && t.normB && !condRedex c) := rfl

/-- One-step normal form equation for a three-child if/when node. -/
theorem Node.normB_ifWhen3_eq (es : Bool) (el : Nat) (p : SourcePos) (c t e : Node) :
    (Node.mk (.ifWhen es el) p [c, t, e]).normB =
      (c.normB && t.normB && e.normB && !condRedex c) := rfl

/-- One-step normal form equation for a two-child while node. -/
theorem Node.normB_while2_eq (p : SourcePos) (c b : Node) :
    (Node.mk .whileLoop p [c, b]).normB = (c.normB && b.normB && whileCondOK c) := rfl

/-- One-step normal form equation for a folded if/when node. -/
theorem Node.normB_foldedIfWhen_eq (op : AsebaBinaryOperator) (es : Bool) (el : Nat)
    (p : SourcePos) (cs : List Node) :
    (Node.mk (.foldedIfWhen op es el) p cs).normB =
      (Node.normListB cs && !foldedCmpRedex op cs) := rfl

/-- One-step normal form equation for a folded while node. -/
theorem Node.normB_foldedWhile_eq (op : AsebaBinaryOperator) (p : SourcePos)
    (cs : List Node) :
    (Node.mk (.foldedWhile op) p cs).normB =
      (Node.normListB cs && !foldedWhileRedex op cs) := rfl

/-- The two operands of a comparison-top condition in normal form are normal
and not both immediates. -/
theorem normB_comparisonTop (bop : AsebaBinaryOperator) (cp : SourcePos)
    (bl br : Node) (hcmp : bop.isComparison = true)
    (hc : (Node.mk (.binaryArithmetic bop) cp [bl, br]).normB = true) :
    bl.normB = true ∧ br.normB = true ∧ (bl.isImmediate && br.isImmediate) = false := by
  simp only [Node.normB, Bool.and_eq_true] at hc
  refine ⟨hc.1.1, hc.1.2, ?_⟩
  have h2 : binRedex bop bl br = false := by simpa using hc.2
  rwa [binRedex_comparison bop bl br hcmp] at h2

/-- Finishing a unary node after child optimization only produces normal
trees from a normal child. -/
theorem unaryFinishA (op : AsebaUnaryOperator) (p : SourcePos) (c m : Node)
    (h : unaryFinish op p c = .ok (some m)) (hc : c.normB = true) :
    m.normB = true := by
  unfold unaryFinish at h
  split at h
  · cases h
    rfl
  · rename_i bop cp bl br
    split at h
    · cases h
      rename_i hcond
      obtain ⟨h1, h2, h3⟩ := normB_comparisonTop bop cp bl br hcond.2 hc
      have hcmp := negateComparisonOp_isComparison bop hcond.2
      simp [Node.normB, h1, h2, binRedex_comparison _ _ _ hcmp, h3]
    · rename_i hcond
      cases h
      have hb2 : (decide (op = AsebaUnaryOperator.opNot) && bop.isComparison) = false := by
        by_cases hop : op = .opNot
        · rcases Bool.eq_false_or_eq_true bop.isComparison with hbc | hbc
          · exact absurd ⟨hop, hbc⟩ hcond
          · simp [hbc]
        · simp [hop]
      have hu : unRedex op (Node.mk (.binaryArithmetic bop) cp [bl, br]) = false := by
        simp only [unRedex, Node.isImmediate, Node.isComparisonTop, Bool.false_or]
        exact hb2
      rw [Node.normB_unary_eq]
      simp [hc, hu]
  · cases h
    rename_i hn1 hn2
    have hci : c.isImmediate = false := Node.isImmediate_false_of c hn1
    have hct : c.isComparisonTop = false := Node.isComparisonTop_false_of c hn2
    simp [Node.normB, hc, unRedex, hci, hct]

/-- Finishing an if/when after child optimization only produces normal trees
from a normal condition and normal blocks. -/
theorem ifWhenFinishA (es : Bool) (el : Nat) (p : SourcePos) (c t : Node)
    (e : Option Node) (m : Node) (h : ifWhenFinish es el p c t e = .ok (some m))
    (hc : c.normB = true) (ht : t.normB = true)
    (he : ∀ x, e = some x → x.normB = true) : m.normB = true := by
  unfold ifWhenFinish at h
  split at h
  · split_ifs at h
    · cases h
      exact ht
    · cases e with
      | none => simp at h
      | some x =>
        simp only [Except.ok.injEq, Option.some.injEq] at h
        subst h
        exact he x rfl
  · rename_i bop cp bl br
    split at h
    · cases h
      rename_i hcmp
      obtain ⟨h1, h2, h3⟩ := normB_comparisonTop bop cp bl br hcmp hc
      rw [Node.normB_foldedIfWhen_eq]
      cases e with
      | none =>
        simp [Node.normListB, Option.toList, h1, h2, ht,
          foldedCmpRedex_false_of bop bl br _ h3]
      | some x =>
        simp [Node.normListB, Option.toList, h1, h2, ht, he x rfl,
          foldedCmpRedex_false_of bop bl br _ h3]
    · rename_i hncmp
      have hbc : bop.isComparison = false := by simpa using hncmp
      cases e with
      | none =>
        simp only [Option.toList, List.append_nil] at h
        cases h
        rw [Node.normB_ifWhen2_eq]
        simp [hc, ht, condRedex, Node.isImmediate, Node.isComparisonTop, hbc]
      | some x =>
        simp only [Option.toList, List.cons_append, List.nil_append] at h
        cases h
        rw [Node.normB_ifWhen3_eq]
        simp [hc, ht, he x rfl, condRedex, Node.isImmediate,
          Node.isComparisonTop, hbc]
  · rename_i hn1 hn2
    have hci : c.isImmediate = false := Node.isImmediate_false_of c hn1
    have hct : c.isComparisonTop = false := Node.isComparisonTop_false_of c hn2
    cases e with
    | none =>
      simp only [Option.toList, List.append_nil] at h
      cases h
      rw [Node.normB_ifWhen2_eq]
      simp [hc, ht, condRedex, hci, hct]
    | some x =>
      simp only [Option.toList, List.cons_append, List.nil_append] at h
      cases h
      rw [Node.normB_ifWhen3_eq]
      simp [hc, ht, he x rfl, condRedex, hci, hct]

/-- Finishing a while after child optimization only produces normal trees
from a normal condition and body. -/
theorem whileFinishA (p : SourcePos) (c b m : Node)
    (h : whileFinish p c b = .ok (some m)) (hc : c.normB = true)
    (hb : b.normB = true) : m.normB = true := by
  unfold whileFinish at h
  split at h
  · split_ifs at h with hv
    · simp at h
    · cases h
      rw [Node.normB_while2_eq]
      simp [Node.normB, hb, whileCondOK, hv]
  · rename_i bop cp bl br
    split at h
    · cases h
      rename_i hcmp
      obtain ⟨h1, h2, h3⟩ := normB_comparisonTop bop cp bl br hcmp hc
      rw [Node.normB_foldedWhile_eq]
      simp [Node.normListB, h1, h2, hb,
        foldedWhileRedex_false_of bop bl br _ h3]
    · rename_i hncmp
      cases h
      have hbc : bop.isComparison = false := by simpa using hncmp
      rw [Node.normB_while2_eq]
      simp [hc, hb, whileCondOK, Node.isComparisonTop, hbc]
  · cases h
    rename_i hn1 hn2
    have hct : c.isComparisonTop = false := Node.isComparisonTop_false_of c hn2
    rw [Node.normB_while2_eq]
    simp [hc, hb, whileCondOK_of_notImm c hn1, hct]

/-- Finishing a folded if/when after child optimization only produces normal
trees from normal children. -/
theorem foldedIfWhenFinishA (op : AsebaBinaryOperator) (es : Bool) (el : Nat)
    (p : SourcePos) (cs : List Node) (m : Node)
    (h : foldedIfWhenFinish op es el p cs = .ok (some m))
    (hcs : Node.normListB cs = true) : m.normB = true := by
  unfold foldedIfWhenFinish at h
  split at h
  · rename_i a pa ca b pb cb rest
    split at h
    · cases h
      refine Node.normListB_mem hcs ?_
      simp
    · simp at h
    · cases h
      refine Node.normListB_mem hcs ?_
      simp
    · simp at h
    · cases h
      rename_i u1 u2 hev
      rw [Node.normB_foldedIfWhen_eq]
      simp [hcs, foldedCmpRedex, hev]
  · cases h
    rename_i hn
    rw [Node.normB_foldedIfWhen_eq]
    simp [hcs, foldedCmpRedex_false_of_shape op cs hn]

/-- Finishing a folded while after child optimization only produces normal
trees from normal children. -/
theorem foldedWhileFinishA (op : AsebaBinaryOperator) (p : SourcePos)
    (cs : List Node) (m : Node) (h : foldedWhileFinish op p cs = .ok (some m))
    (hcs : Node.normListB cs = true) : m.normB = true := by
  unfold foldedWhileFinish at h
  split at h
  · rename_i a pa ca b pb cb rest
    split at h
    · simp at h
    · cases h
      rename_i u1 hev
      rw [Node.normB_foldedWhile_eq]
      have hred : foldedWhileRedex op
          (Node.mk (.immediate a) pa ca :: Node.mk (.immediate b) pb cb :: rest) = false := by
        simp only [foldedWhileRedex, decide_eq_false_iff_not]
        intro hfalse
        exact hev hfalse
      simp [hcs, hred]
  · cases h
    rename_i hn
    rw [Node.normB_foldedWhile_eq]
    simp [hcs, foldedWhileRedex_false_of_shape op cs hn]

/-- Every tree the optimizer returns is in optimizer normal form. -/
theorem Node.optimize_normB :
    ∀ n m : Node, n.optimize = .ok (some m) → m.normB = true := by
  suffices h : ∀ N (n : Node), n.nsize ≤ N → ∀ m, n.optimize = .ok (some m) →
      m.normB = true by
    intro n
    exact h n.nsize n le_rfl
  intro N
  induction N with
  | zero =>
    intro n hn
    have := n.nsize_pos
    omega
  | succ N IH =>
    intro n hn m h
    obtain ⟨t, p, cs⟩ := n
    have hkid : ∀ c ∈ cs, ∀ m', c.optimize = .ok (some m') → m'.normB = true := by
      intro c hc
      refine IH c ?_
      have := Node.nsize_le_of_mem hc
      simp [Node.nsize] at hn
      omega
    rw [Node.optimize.eq_def] at h
    split at h
    · rename_i orig p2 cs2 heq
      injection heq with ht hp hcs
      subst ht hp hcs
      split at h
      · cases h
        rename_i cs' heq2
        obtain ⟨h1, h2⟩ := Node.optimizeBlockChildrenA cs hkid cs' heq2
        simp [Node.normB, h1, h2]
      · cases h
    · rename_i orig p2 cs2 heq
      injection heq with ht hp hcs
      subst ht hp hcs
      split at h
      · cases h
        rename_i cs' heq2
        obtain ⟨h1, h2⟩ := Node.optimizeBlockChildrenA cs hkid cs' heq2
        simp [Node.normB, h1, h2]
      · cases h
    · rename_i orig p2 cs2 heq
      injection heq with ht hp hcs
      subst ht hp hcs
      split at h
      · cases h
        rename_i cs' heq2
        simp [Node.normB, Node.optimizeKeepA cs hkid cs' heq2]
      · cases h
    · rename_i orig es2 el2 p2 cond thenB heq
      injection heq with ht hp hcs
      subst ht hp hcs
      split at h
      · rename_i c t1 hco hto
        exact ifWhenFinishA es2 el2 p c t1 none m h
          (hkid cond (by simp) c hco) (hkid thenB (by simp) t1 hto)
          (fun x hx => Option.noConfusion hx)
      · cases h
      · cases h
      · cases h
      · cases h
    · rename_i orig es2 el2 p2 cond thenB elseB heq
      injection heq with ht hp hcs
      subst ht hp hcs
      split at h
      · rename_i c t1 e1 hco hto heo
        refine ifWhenFinishA es2 el2 p c t1 (some e1) m h
          (hkid cond (by simp) c hco) (hkid thenB (by simp) t1 hto) ?_
        intro x hx
        injection hx with hx
        subst hx
        exact hkid elseB (by simp) _ heo
      · cases h
      · cases h
      · cases h
      · cases h
      · cases h
      · cases h
    · rename_i orig es2 el2 p2 cs2 hex1 hex2 heq
      injection heq with ht hp hcs
      subst ht hp hcs
      split at h
      · cases h
        rename_i cs' heq2
        have hlen := Node.optimizeKeep_length cs cs' heq2
        have h1 := Node.optimizeKeepA cs hkid cs' heq2
        rcases cs' with _ | ⟨a, _ | ⟨b, _ | ⟨d, rest⟩⟩⟩
        · simp [Node.normB, Node.normListB]
        · simp [Node.normB, h1]
        · exfalso
          rcases cs with _ | ⟨x, _ | ⟨y, _ | _⟩⟩ <;> simp at hlen
          exact hex1 x y rfl
        · rcases rest with _ | ⟨f, rest'⟩
          · exfalso
            rcases cs with _ | ⟨x, _ | ⟨y, _ | ⟨z, _ | _⟩⟩⟩ <;> simp at hlen
            exact hex2 x y z rfl
          · simp [Node.normB, h1]
      · cases h
    · rename_i orig p2 cond body heq
      injection heq with ht hp hcs
      subst ht hp hcs
      split at h
      · rename_i c b1 hco hbo
        exact whileFinishA p c b1 m h
          (hkid cond (by simp) c hco) (hkid body (by simp) b1 hbo)
      · cases h
      · cases h
      · cases h
      · cases h
    · rename_i orig p2 cs2 hex1 heq
      injection heq with ht hp hcs
      subst ht hp hcs
      split at h
      · cases h
        rename_i cs' heq2
        have hlen := Node.optimizeKeep_length cs cs' heq2
        have h1 := Node.optimizeKeepA cs hkid cs' heq2
        rcases cs' with _ | ⟨a, _ | ⟨b, rest⟩⟩
        · simp [Node.normB, Node.normListB]
        · simp [Node.normB, h1]
        · rcases rest with _ | ⟨f, rest'⟩
          · exfalso
            rcases cs with _ | ⟨x, _ | ⟨y, _ | _⟩⟩ <;> simp at hlen
            exact hex1 x y rfl
          · simp [Node.normB, h1]
      · cases h
    · rename_i orig op2 es2 el2 p2 cs2 heq
      injection heq with ht hp hcs
      subst ht hp hcs
      split at h
      · rename_i cs' heq2
        exact foldedIfWhenFinishA op2 es2 el2 p cs' m h
          (Node.optimizeKeepA cs hkid cs' heq2)
      · cases h
    · rename_i orig op2 p2 cs2 heq
      injection heq with ht hp hcs
      subst ht hp hcs
      split at h
      · rename_i cs' heq2
        exact foldedWhileFinishA op2 p cs' m h
          (Node.optimizeKeepA cs hkid cs' heq2)
      · cases h
    · rename_i orig op2 p2 l r heq
      injection heq with ht hp hcs
      subst ht hp hcs
      split at h
      · rename_i l' r' hlo hro
        exact binaryFinishA op2 p l' r' m h
          (hkid l (by simp) l' hlo) (hkid r (by simp) r' hro)
      · cases h
      · cases h
      · cases h
      · cases h
    · rename_i orig op2 p2 cs2 hex1 heq
      injection heq with ht hp hcs
      subst ht hp hcs
      split at h
      · cases h
        rename_i cs' heq2
        have hlen := Node.optimizeKeep_length cs cs' heq2
        have h1 := Node.optimizeKeepA cs hkid cs' heq2
        rcases cs' with _ | ⟨a, _ | ⟨b, rest⟩⟩
        · simp [Node.normB, Node.normListB]
        · simp [Node.normB, h1]
        · rcases rest with _ | ⟨f, rest'⟩
          · exfalso
            rcases cs with _ | ⟨x, _ | ⟨y, _ | _⟩⟩ <;> simp at hlen
            exact hex1 x y rfl
          · simp [Node.normB, h1]
      · cases h
    · rename_i orig op2 p2 c heq
      injection heq with ht hp hcs
      subst ht hp hcs
      split at h
      · rename_i c' hco
        exact unaryFinishA op2 p c' m h (hkid c (by simp) c' hco)
      · cases h
      · cases h
    · rename_i orig op2 p2 cs2 hex1 heq
      injection heq with ht hp hcs
      subst ht hp hcs
      split at h
      · cases h
        rename_i cs' heq2
        have hlen := Node.optimizeKeep_length cs cs' heq2
        have h1 := Node.optimizeKeepA cs hkid cs' heq2
        rcases cs' with _ | ⟨a, rest⟩
        · simp [Node.normB, Node.normListB]
        · rcases rest with _ | ⟨f, rest'⟩
          · exfalso
            rcases cs with _ | ⟨x, _ | _⟩ <;> simp at hlen
            exact hex1 x rfl
          · simp [Node.normB, h1]
      · cases h
    · rename_i orig ev2 a2 s2 p2 cs2 heq
      injection heq with ht hp hcs
      subst ht hp hcs
      split at h
      · cases h
        rename_i cs' heq2
        simp [Node.normB, Node.optimizeKeepA cs hkid cs' heq2]
      · cases h
    · rename_i orig f2 aa2 p2 cs2 heq
      injection heq with ht hp hcs
      subst ht hp hcs
      split at h
      · cases h
        rename_i cs' heq2
        simp [Node.normB, Node.optimizeKeepA cs hkid cs' heq2]
      · cases h
    · rename_i orig a2 s2 nm2 p2 cs2 heq
      injection heq with ht hp hcs
      subst ht hp hcs
      split at h
      · cases h
        rename_i cs' heq2
        simp [Node.normB, Node.optimizeKeepA cs hkid cs' heq2]
      · cases h
    · rename_i orig a2 s2 nm2 p2 cs2 heq
      injection heq with ht hp hcs
      subst ht hp hcs
      split at h
      · cases h
        rename_i cs' heq2
        simp [Node.normB, Node.optimizeKeepA cs hkid cs' heq2]
      · cases h
    · simp at h
    · cases h
      clear hkid hn IH
      rename_i q1 q2 q3 q4 q5 q6 q7 q8 q9 q10 q11 q12 q13 q14 q15 q16 q17 q18 q19 q20
      injection q20 with ht hp hcs
      subst ht hp hcs
      cases t with
      | block => exact absurd rfl q1
      | program => exact absurd rfl q2
      | assignment => exact absurd rfl q3
      | ifWhen es el => exact absurd rfl (q6 es el)
      | whileLoop => exact absurd rfl q8
      | foldedIfWhen op es el => exact absurd rfl (q9 op es el)
      | foldedWhile op => exact absurd rfl (q10 op)
      | binaryArithmetic op => exact absurd rfl (q12 op)
      | unaryArithmetic op => exact absurd rfl (q14 op)
      | emitEvent ev a s => exact absurd rfl (q15 ev a s)
      | call f aa => exact absurd rfl (q16 f aa)
      | arrayRead a s nm => exact absurd rfl (q17 a s nm)
      | arrayWrite a s nm => exact absurd rfl (q18 a s nm)
      | memoryVector a s nm w => exact absurd rfl (q19 a s nm w)
      | eventDecl e => rfl
      | subDecl sd => rfl
      | callSub si => rfl
      | returnStatement => rfl
      | immediate v => rfl
      | store a => rfl
      | load a => rfl
      | staticVector vs => rfl

/-- C4: the optimization pass is idempotent: whenever `optimize` succeeds
and returns a tree, running `optimize` on that tree returns it unchanged
(structurally identical), so `optimize (optimize t) = optimize t`. -/
theorem optimize_idempotent (n m : Node) (h : Node.optimize n = .ok (some m)) :
    Node.optimize m = .ok (some m) :=
  Node.optimize_of_normB m (Node.optimize_normB n m h)

/-- C4 witness: optimizing `1 + 2` folds it to the immediate 3, and a second
run of the optimizer leaves the immediate 3 unchanged. -/
theorem optimize_idempotent_witness :
    Node.optimize (Node.mk (.immediate 3) pos0 []) =
      .ok (some (Node.mk (.immediate 3) pos0 [])) :=
  optimize_idempotent
    (Node.mk (.binaryArithmetic .opAdd) pos0
      [Node.mk (.immediate 1) pos0 [], Node.mk (.immediate 2) pos0 []])
    (Node.mk (.immediate 3) pos0 []) (by rfl)

end Aseba
